import Mathlib

/-!
Verification development for the swagger-parser code generator
(`swagger_parser.py`).  The Python source is shallowly embedded:

* Python strings are Lean `String`s (operated on via their `List Char`
  data); the regex character classes `[a-zA-Z0-9]`, `\w`, `\d`, `[A-Z]`
  and `str.upper()/str.lower()` are modelled at their ASCII meaning
  (the inputs of interest are ASCII identifiers).
* Python dicts are association lists `List (String × α)` with
  dict-semantics insert (update-in-place, insertion order preserved)
  and first-match lookup; key-presence tests (`"k" in d`) are modelled
  by `Option` fields being `some`.
* A schema node (a JSON dict) is modelled by the `Schema` inductive,
  recording exactly the keys the generator reads: `$ref`, `type`,
  `enum`, `allOf`, `properties`, `items`.
* The mutually recursive `resolve_dependencies` procedure of
  `generate_api_client` mutates `visited`, `classes`, `enums`,
  `existing_enums`; this state is threaded explicitly (`GenState`).
  A raised `KeyError` (`schema_queue[class_name]` on a missing key)
  is `Except.error (Err.keyError _)`.  The recursion is modelled with
  explicit fuel; `Err.fuelResolve` marks fuel exhaustion of the
  reference-traversal recursion (we prove it cannot happen for fuel
  `|queue| + 1`), `Err.fuelInline` marks fuel exhaustion of the
  `create_dataclass` inline-object recursion.
* Emitted class declarations are abstracted to their class names,
  tagged `EC.defC` for the per-definition emission
  (`classes.append(create_dataclass(class_name, schema, ...))`) and
  `EC.inlC` for inline-class emissions.
-/

/- ## Character-level helpers (ASCII models of the regex substitutions) -/

/-- `re.sub(r"[^a-zA-Z0-9]", "_", ·)` applied to one character. -/
def subAlnum (c : Char) : Char :=
  if c.isAlphanum then c else '_'

/-- `re.sub(r"\W", "_", ·)` applied to one character (`\w` = `[a-zA-Z0-9_]`). -/
def subWord (c : Char) : Char :=
  if c.isAlphanum || c = '_' then c else '_'

/-- Leading strip of a given character (`str.strip`, left half). -/
def lstripC (ch : Char) : List Char → List Char
  | [] => []
  | c :: t => if c = ch then lstripC ch t else c :: t

/-- Trailing strip of a given character (`str.strip`, right half). -/
def rstripC (ch : Char) : List Char → List Char
  | [] => []
  | c :: t =>
    match rstripC ch t with
    | [] => if c = ch then [] else [c]
    | r => c :: r

/-- `re.sub(r"__", "_", ·)`: replace non-overlapping pairs of
underscores by one underscore, scanning left to right. -/
def dedupDD : List Char → List Char
  | [] => []
  | [c] => [c]
  | c :: d :: t =>
    if c = '_' ∧ d = '_' then '_' :: dedupDD t
    else c :: dedupDD (d :: t)

/-- Tail part of `re.sub(r"(?<!^)(?=[A-Z])", "_", ·)`: every position
after the first that carries an upper-case letter gets an underscore
inserted in front of it. -/
def insUndGo : List Char → List Char
  | [] => []
  | c :: t => if c.isUpper then '_' :: c :: insUndGo t else c :: insUndGo t

/-- `re.sub(r"(?<!^)(?=[A-Z])", "_", ·)` (the position-0 lookbehind
exempts the first character). -/
def insUnd : List Char → List Char
  | [] => []
  | c :: t => c :: insUndGo t

/-- `re.match(r"^\d", ·)` as a Bool. -/
def startsDigit : List Char → Bool
  | [] => false
  | c :: _ => c.isDigit

/- ## Identifier Normalizer (`to_snake_case`, `to_class_name`,
`sanitize_field`, and `create_enum`'s member sanitization) -/

/-- `to_snake_case` (swagger_parser.py lines 16-20). -/
def to_snake_case (s : String) : String :=
  let l1 := (insUnd s.data).map Char.toLower
  let l2 := l1.map subWord
  let l3 := dedupDD l2
  String.mk (rstripC '_' (lstripC '_' l3))

/-- `to_class_name` (swagger_parser.py lines 23-28).  The final
`''.join(x for x in cleaned_name.split('_'))` concatenates the
underscore-separated segments unchanged, i.e. removes every
underscore. -/
def to_class_name (s : String) : String :=
  let cleaned := dedupDD (rstripC '_' (lstripC '_' (s.data.map subAlnum)))
  let cleaned2 := if startsDigit cleaned then 's' :: cleaned else cleaned
  String.mk (cleaned2.filter (fun c => c != '_'))

/-- `sanitize_field` (swagger_parser.py lines 31-35). -/
def sanitize_field (s : String) : String :=
  let l := s.data.map subWord
  String.mk (if startsDigit l then '_' :: l else l)

/-- The member-identifier sanitization of `create_enum`
(swagger_parser.py lines 42-44):
`re.sub(r"[^a-zA-Z0-9]", "_", v).upper()`, then a leading `_` if the
result starts with a digit. -/
def enum_member (v : String) : String :=
  let l := (v.data.map subAlnum).map Char.toUpper
  String.mk (if startsDigit l then '_' :: l else l)

/-- The member identifiers emitted by `create_enum name values`
(one `fields.append` per element of `values`, lines 40-45). -/
def create_enum_members (values : List String) : List String :=
  values.map enum_member

/-- A valid target-language identifier: non-empty, only
alphanumeric/underscore characters, not starting with a digit. -/
def validIdent (s : String) : Prop :=
  s.data ≠ [] ∧ (s.data.all (fun c => c.isAlphanum || c = '_')) = true ∧
    startsDigit s.data = false

instance instDecValidIdent (s : String) : Decidable (validIdent s) := by
  have : validIdent s ↔ (s.data ≠ [] ∧
      (s.data.all (fun c => c.isAlphanum || c = '_')) = true ∧
      startsDigit s.data = false) := Iff.rfl
  exact decidable_of_iff _ this.symm

/- ## Schema data model -/

/-- A JSON-schema node as read by the generator: each field is the
content of the corresponding dict key, `none` meaning the key is
absent.  (`ref` = `$ref`, `ty` = `type`, `enumV` = `enum`,
`allOfV` = `allOf`, `propsV` = `properties`, `itemsV` = `items`.) -/
inductive Schema where
  | mk (ref : Option String) (ty : Option String)
       (enumV : Option (List String))
       (allOfV : Option (List Schema))
       (propsV : Option (List (String × Schema)))
       (itemsV : Option Schema) : Schema

def Schema.ref : Schema → Option String
  | .mk r _ _ _ _ _ => r

def Schema.ty : Schema → Option String
  | .mk _ t _ _ _ _ => t

def Schema.enumV : Schema → Option (List String)
  | .mk _ _ e _ _ _ => e

def Schema.allOfV : Schema → Option (List Schema)
  | .mk _ _ _ a _ _ => a

def Schema.propsV : Schema → Option (List (String × Schema))
  | .mk _ _ _ _ p _ => p

def Schema.itemsV : Schema → Option Schema
  | .mk _ _ _ _ _ i => i

/-- The empty dict `{}` as a schema node. -/
def Schema.empty : Schema := .mk none none none none none none

/-- `ref["$ref"].split("/")[-1]`: the last `/`-separated segment is
exactly the characters after the final `/` (the whole string when no
`/` occurs). -/
def lastSegment (s : String) : String :=
  String.mk ((s.data.reverse.takeWhile (fun c => c != '/')).reverse)

/-- Dict-semantics lookup (first match; Python dicts have unique keys). -/
def dlookup {α : Type} : List (String × α) → String → Option α
  | [], _ => none
  | (k, v) :: t, x => if k = x then some v else dlookup t x

/-- Dict-semantics insert: an existing key keeps its position and gets
the new value, a new key is appended. -/
def dictInsert {α : Type} (l : List (String × α)) (k : String) (v : α) :
    List (String × α) :=
  if (dlookup l k).isSome then
    l.map (fun kv => if kv.1 = k then (k, v) else kv)
  else l ++ [(k, v)]

/-- `dict.update` (merge second dict into first, dict semantics). -/
def dictUpdate {α : Type} (l m : List (String × α)) : List (String × α) :=
  m.foldl (fun acc kv => dictInsert acc kv.1 kv.2) l

/- ## merge_allOf (swagger_parser.py lines 66-77) -/

/-- Merging the keys of one `allOf` member into the accumulated result:
`properties` is merged via `setdefault(...).update(...)`, every other
present key overwrites (later wins). -/
def mergeItem (res item : Schema) : Schema :=
  .mk
    (match item.ref with | some r => some r | none => res.ref)
    (match item.ty with | some t => some t | none => res.ty)
    (match item.enumV with | some e => some e | none => res.enumV)
    (match item.allOfV with | some a => some a | none => res.allOfV)
    (match item.propsV with
     | some ps => some (dictUpdate ((res.propsV).getD []) ps)
     | none => res.propsV)
    (match item.itemsV with | some i => some i | none => res.itemsV)

/-- One `allOf` member after the `$ref` indirection: a member that is a
reference is replaced by `definitions.get(ref_name, {})`, looked up by
the raw last segment of the `$ref` in the original definitions dict. -/
def resolveAllOfItem (defs : List (String × Schema)) (item : Schema) : Schema :=
  match item.ref with
  | some r => (dlookup defs (lastSegment r)).getD Schema.empty
  | none => item

/-- `merge_allOf(schema, definitions)`. -/
def merge_allOf (defs : List (String × Schema)) (schema : Schema) : Schema :=
  (schema.allOfV.getD []).foldl
    (fun res item => mergeItem res (resolveAllOfItem defs item)) Schema.empty

/- ## create_dataclass: the emitted field line (lines 107-147) -/

/-- The primitive-type mapping used for `items` of an array property
(lines 133-143): `object`+`properties` is handled by the caller. -/
def itemTypeName (className pn : String) (items : Schema) : String :=
  match items.ref with
  | some r => to_class_name (lastSegment r)
  | none =>
    match items.ty with
    | some it =>
      if it = "object" ∧ items.propsV.isSome then
        to_class_name (className ++ "_" ++ pn ++ "_Item")
      else if it = "string" then "str"
      else if it = "integer" ∨ it = "number" then "int"
      else if it = "boolean" then "bool"
      else "Any"
    | none => "Any"

/-- The exact text of the field emitted for one property by
`create_dataclass` (lines 107-147). -/
def field_line (className pn : String) (prop : Schema) : String :=
  let sname := sanitize_field pn
  let dflt := "field(default=None, metadata=config(field_name=\x27" ++ pn ++ "\x27))"
  match prop.ref with
  | some r =>
    "    " ++ sname ++ ": Optional[" ++ to_class_name (lastSegment r) ++ "] = " ++ dflt
  | none =>
    match prop.ty with
    | none => "    " ++ sname ++ ": Optional[Any] = " ++ dflt
    | some t =>
      if prop.enumV.isSome then
        let en := to_class_name (className ++ "_" ++ pn)
        "    " ++ sname ++ ": Optional[" ++ en ++ "] = " ++ en
      else if t = "string" then "    " ++ sname ++ ": Optional[str] = " ++ dflt
      else if t = "integer" ∨ t = "number" then
        "    " ++ sname ++ ": Optional[int] = " ++ dflt
      else if t = "boolean" then "    " ++ sname ++ ": Optional[bool] = " ++ dflt
      else if t = "array" then
        "    " ++ sname ++ ": Optional[List[" ++
          itemTypeName className pn (prop.itemsV.getD Schema.empty) ++ "]] = " ++ dflt
      else "    " ++ sname ++ ": Optional[Any] = " ++ dflt

/- ## Operation Classifier: the callable name (line 221) -/

/-- `details.get("", f"{method}_{path.strip('/').replace('/', '_')}")`
followed by `to_snake_case`: the code looks up the EMPTY-STRING key of
the operation dict, not `"operationId"`. -/
def op_func_name (details : List (String × String)) (method path : String) :
    String :=
  to_snake_case
    (match dlookup details "" with
     | some v => v
     | none =>
       method ++ "_" ++
         String.mk ((rstripC '/' (lstripC '/' path.data)).map
           (fun c => if c = '/' then '_' else c)))

/- ## Definition-table selection (line 171) -/

/-- `swagger_json.get("components", {}).get("schemas", {}) or
swagger_json.get("definitions", {})`: Python `or` takes the first
operand unless it is falsy (the empty dict). -/
def selectDefinitions (componentsSchemas definitions : List (String × Schema)) :
    List (String × Schema) :=
  if componentsSchemas.isEmpty then definitions else componentsSchemas

/- ## create_dataclass side effects (enum registry and inline classes) -/

/-- Error outcomes of the embedded generation run. -/
inductive Err where
  | keyError (name : String)
  | fuelResolve
  | fuelInline
deriving DecidableEq, Repr

/-- An entry of the `classes` accumulator, abstracted to the class
name: `defC` for the per-definition append at line 204, `inlC` for
inline-class appends (lines 136 and 202). -/
inductive EC where
  | defC (name : String)
  | inlC (name : String)
deriving DecidableEq, Repr

/-- The `existing_enums` dict: generated enum name → declared values. -/
abbrev Eenums := List (String × List String)

/-- The property loop of `create_dataclass` (lines 107-147), with its
side effects: registering property enums in `existing_enums` and
appending inline classes for array items of object type (the
recursive `create_dataclass` call is the parameter `rec`).
Returns the updated registry and the inline class names appended,
in order. -/
def cdProps (rec : String → Schema → Eenums → Except Err (Eenums × List String))
    (name : String) :
    List (String × Schema) → Eenums → List String →
    Except Err (Eenums × List String)
  | [], ee, acc => .ok (ee, acc)
  | (pn, prop) :: rest, ee, acc =>
    if prop.ref.isSome then cdProps rec name rest ee acc
    else
      match prop.ty with
      | none => cdProps rec name rest ee acc
      | some t =>
        if prop.enumV.isSome then
          cdProps rec name rest
            (dictInsert ee (to_class_name (name ++ "_" ++ pn)) (prop.enumV.getD []))
            acc
        else if t = "array" then
          let items := prop.itemsV.getD Schema.empty
          if items.ref.isSome then cdProps rec name rest ee acc
          else
            match items.ty with
            | some it =>
              if it = "object" ∧ items.propsV.isSome then
                match rec (to_class_name (name ++ "_" ++ pn ++ "_Item")) items ee with
                | .error e => .error e
                | .ok (ee2, inner) =>
                  cdProps rec name rest ee2
                    (acc ++ inner ++ [to_class_name (name ++ "_" ++ pn ++ "_Item")])
              else cdProps rec name rest ee acc
            | none => cdProps rec name rest ee acc
        else cdProps rec name rest ee acc

/-- `create_dataclass(name, schema, existing_enums, definitions, classes)`
(lines 80-153), abstracted to its side effects: the updated
`existing_enums` and the names of the inline classes it appends to
`classes` (in order), the returned class text being abstracted to
`name`.  The recursion through array items of object type is fuelled;
the Python code can actually recurse unboundedly here (via `allOf`
re-introducing the same properties), hence the explicit fuel. -/
def create_dataclass_fx (defs : List (String × Schema)) :
    Nat → String → Schema → Eenums → Except Err (Eenums × List String)
  | 0, _, _, _ => .error .fuelInline
  | fuel+1, name, schema, ee =>
    if schema.ty = some "array" ∧ schema.itemsV.isSome then .ok (ee, [])
    else
      let schema2 := if schema.allOfV.isSome then merge_allOf defs schema else schema
      cdProps (create_dataclass_fx defs fuel) name (schema2.propsV.getD []) ee []

/- ## resolve_dependencies (lines 176-207) and the resolver loop -/

/-- The mutable state of `generate_api_client`'s model-resolution part:
`visited` (most recent first, matching `visited.add` order), the
`classes` accumulator (append order), the `enums` accumulator
(abstracted to enum names), and `existing_enums`. -/
structure GenState where
  visited : List String
  classes : List EC
  enums : List String
  eenums : Eenums
deriving DecidableEq, Repr

def initState : GenState := ⟨[], [], [], []⟩

/-- The `allOf` branch of `resolve_dependencies` (lines 185-189):
recurse on each member that is a `$ref`. -/
def loopAllOf (f : GenState → String → Except Err GenState) :
    List Schema → GenState → Except Err GenState
  | [], s => .ok s
  | item :: rest, s =>
    match item.ref with
    | some r =>
      match f s (to_class_name (lastSegment r)) with
      | .error e => .error e
      | .ok s2 => loopAllOf f rest s2
    | none => loopAllOf f rest s

/-- The `properties` branch of `resolve_dependencies` (lines 190-202):
recurse on property `$ref`s and array-item `$ref`s; array items of
object type get an inline class emitted via `create_dataclass`. -/
def loopProps (defs : List (String × Schema)) (cdFuel : Nat) (cname : String)
    (f : GenState → String → Except Err GenState) :
    List (String × Schema) → GenState → Except Err GenState
  | [], s => .ok s
  | (_, prop) :: rest, s =>
    match prop.ref with
    | some r =>
      match f s (to_class_name (lastSegment r)) with
      | .error e => .error e
      | .ok s2 => loopProps defs cdFuel cname f rest s2
    | none =>
      if prop.ty = some "array" then
        let items := prop.itemsV.getD Schema.empty
        match items.ref with
        | some r =>
          match f s (to_class_name (lastSegment r)) with
          | .error e => .error e
          | .ok s2 => loopProps defs cdFuel cname f rest s2
        | none =>
          if items.ty = some "object" then
            match create_dataclass_fx defs cdFuel
                (to_class_name (cname ++ "_inline")) items s.eenums with
            | .error e => .error e
            | .ok (ee, inl) =>
              loopProps defs cdFuel cname f rest
                { s with eenums := ee,
                         classes := s.classes ++ inl.map EC.inlC ++
                           [EC.inlC (to_class_name (cname ++ "_inline"))] }
          else loopProps defs cdFuel cname f rest s
      else loopProps defs cdFuel cname f rest s

/-- `resolve_dependencies(class_name)` (lines 176-207), fuelled.
`visited` is extended before the `schema_queue[class_name]` lookup
(line 179 before line 180); a missing key raises `KeyError`. -/
def resolve_dependencies (defs queue : List (String × Schema)) (cdFuel : Nat) :
    Nat → GenState → String → Except Err GenState
  | 0, _, _ => .error .fuelResolve
  | fuel+1, st, cname =>
    if cname ∈ st.visited then .ok st
    else
      let st1 : GenState := { st with visited := cname :: st.visited }
      match dlookup queue cname with
      | none => .error (.keyError cname)
      | some schema =>
        let st2 := if schema.enumV.isSome then
            { st1 with enums := st1.enums ++ [cname] } else st1
        let afterLoop :=
          match schema.allOfV with
          | some l => loopAllOf (resolve_dependencies defs queue cdFuel fuel) l st2
          | none =>
            match schema.propsV with
            | some props =>
              loopProps defs cdFuel cname
                (resolve_dependencies defs queue cdFuel fuel) props st2
            | none => .ok st2
        match afterLoop with
        | .error e => .error e
        | .ok st3 =>
          match create_dataclass_fx defs cdFuel cname schema st3.eenums with
          | .error e => .error e
          | .ok (ee, inl) =>
            .ok { st3 with eenums := ee,
                           classes := st3.classes ++ inl.map EC.inlC ++
                             [EC.defC cname] }

/-- `schema_queue = {to_class_name(name): schema for name, schema in
definitions.items()}` (line 173): dict-comprehension semantics. -/
def buildQueue (rawDefs : List (String × Schema)) : List (String × Schema) :=
  rawDefs.foldl (fun q p => dictInsert q (to_class_name p.1) p.2) []

/-- `for cname in list(schema_queue.keys()): resolve_dependencies(cname)`
(lines 206-207). -/
def runLoop (step : GenState → String → Except Err GenState) :
    List String → GenState → Except Err GenState
  | [], s => .ok s
  | c :: rest, s =>
    match step s c with
    | .error e => .error e
    | .ok s2 => runLoop step rest s2

/-- The model-resolution pass of `generate_api_client`
(lines 169-207): build the queue, then resolve every definition.
The reference-traversal fuel is `|queue| + 1` (proved sufficient
below); `cdFuel` is the fuel of the inline-class recursion. -/
def runResolver (rawDefs : List (String × Schema)) (cdFuel : Nat) :
    Except Err GenState :=
  let queue := buildQueue rawDefs
  runLoop (resolve_dependencies rawDefs queue cdFuel (queue.length + 1))
    (queue.map Prod.fst) initState

/-- `runResolver` as an `Option` (for concrete evaluations). -/
def runOk (rawDefs : List (String × Schema)) (cdFuel : Nat) : Option GenState :=
  (runResolver rawDefs cdFuel).toOption

/-- The error of a failed run, if any. -/
def runErr (rawDefs : List (String × Schema)) (cdFuel : Nat) : Option Err :=
  match runResolver rawDefs cdFuel with
  | .error e => some e
  | .ok _ => none

/- ## Derived observations on a run -/

/-- The names of per-definition class emissions, in emission order. -/
def defNames (l : List EC) : List String :=
  l.filterMap (fun e => match e with | .defC n => some n | .inlC _ => none)

/-- The name carried by a `classes` entry. -/
def ecName : EC → String
  | .defC n => n
  | .inlC n => n

/-- All names of declarations in the artifact, in emission order:
enum declarations (loop-emitted, then the `existing_enums` ones
appended at lines 209-210), then class declarations. -/
def emittedNames (st : GenState) : List String :=
  st.enums ++ st.eenums.map Prod.fst ++ st.classes.map ecName

/-- Occurrence count in a list of strings. -/
def countOcc (l : List String) (x : String) : Nat :=
  match l with
  | [] => 0
  | y :: t => (if y = x then 1 else 0) + countOcc t x

/-- Index of the first occurrence of `x` in `l` (length of `l` if absent). -/
def firstPos (l : List String) (x : String) : Nat :=
  match l with
  | [] => 0
  | y :: t => if y = x then 0 else firstPos t x + 1

/-- `r` is emitted strictly before `d` in the name list `l`. -/
def precedesIn (l : List String) (r d : String) : Prop :=
  r ∈ l ∧ d ∈ l ∧ firstPos l r < firstPos l d

instance (l : List String) (r d : String) : Decidable (precedesIn l r d) := by
  unfold precedesIn; infer_instance

/- ## Dependency edges -/

/-- The sanitized targets of the `$ref`s among a list of `allOf`
members. -/
def refTargets (l : List Schema) : List String :=
  l.filterMap (fun i => i.ref.map (fun r => to_class_name (lastSegment r)))

/-- The sanitized `$ref` targets `resolve_dependencies` recurses on in
its `properties` branch: direct property refs and array-item refs. -/
def propTargets (props : List (String × Schema)) : List String :=
  props.filterMap (fun pp =>
    match pp.2.ref with
    | some r => some (to_class_name (lastSegment r))
    | none =>
      if pp.2.ty = some "array" then
        ((pp.2.itemsV.getD Schema.empty).ref).map
          (fun r => to_class_name (lastSegment r))
      else none)

/-- The dependency targets the code actually traverses for a schema:
`allOf`-member refs when `allOf` is present, otherwise property and
array-item refs when `properties` is present. -/
def codeEdges (s : Schema) : List String :=
  match s.allOfV with
  | some l => refTargets l
  | none =>
    match s.propsV with
    | some props => propTargets props
    | none => []

/-- The dependency targets named by the claim: direct property
`$ref`s, `$ref`s inside `allOf` members, and `$ref`s inside an array
property's `items` — independent of which branch the code takes. -/
def claimEdges (s : Schema) : List String :=
  refTargets (s.allOfV.getD []) ++ propTargets (s.propsV.getD [])

/-- Edge relation of a definition table under an edge extraction
function. -/
def edgeRel (edgesF : Schema → List String) (queue : List (String × Schema))
    (d r : String) : Prop :=
  ∃ s, dlookup queue d = some s ∧ r ∈ edgesF s

/-- Acyclicity of the edge relation. -/
def acyclicRel (edgesF : Schema → List String)
    (queue : List (String × Schema)) : Prop :=
  ∀ a, ¬ Relation.TransGen (edgeRel edgesF queue) a a

/-- Decidable sufficient condition for acyclicity: a rank function
that strictly increases along every table edge. -/
def rankedBy (edgesF : Schema → List String) (queue : List (String × Schema))
    (rank : String → Nat) : Prop :=
  ∀ p ∈ queue, ∀ r ∈ edgesF p.2, rank p.1 < rank r

mutual

/-- Every `$ref` occurring anywhere in a schema (sanitized last
segment), used to state "the document contains a dangling `$ref`". -/
def allRefs : Schema → List String
  | .mk r _ _ aof props its =>
    (match r with | some x => [to_class_name (lastSegment x)] | none => []) ++
    (match aof with | some l => allRefsL l | none => []) ++
    (match props with | some l => allRefsP l | none => []) ++
    (match its with | some i => allRefs i | none => [])

/-- `allRefs` over a list of schemas. -/
def allRefsL : List Schema → List String
  | [] => []
  | s :: t => allRefs s ++ allRefsL t

/-- `allRefs` over a property list. -/
def allRefsP : List (String × Schema) → List String
  | [] => []
  | (_, s) :: t => allRefs s ++ allRefsP t

end

/-- All refs of a raw definitions table. -/
def allRefsTable (rawDefs : List (String × Schema)) : List String :=
  allRefsP rawDefs

/- ## Specification-level and invariant definitions -/

/-- What `to_class_name` computes, in closed form: keep exactly the
alphanumeric characters of the input, in order, and prepend `'s'` when
the first kept character is a digit. -/
def classNameSpec (s : String) : String :=
  let t := s.data.filter (fun c => c.isAlphanum)
  String.mk (if startsDigit t then 's' :: t else t)

/-- What one successful resolver action guarantees: `visited` grows by
a block `new` of fresh names, each present in the queue with all its
traversed dependency targets visited; `classes` grows by a block whose
per-definition class names are exactly `new` (counted with
multiplicity); `existing_enums` keeps its keys duplicate-free. -/
def RGrow (queue : List (String × Schema)) (st st' : GenState) : Prop :=
  ∃ new Δ,
    st'.visited = new ++ st.visited ∧
    new.Nodup ∧
    (∀ n ∈ new, n ∉ st.visited ∧
      ∃ s, dlookup queue n = some s ∧ ∀ r ∈ codeEdges s, r ∈ st'.visited) ∧
    st'.classes = st.classes ++ Δ ∧
    (∀ x, countOcc (defNames Δ) x = countOcc new x) ∧
    ((st.eenums.map Prod.fst).Nodup → (st'.eenums.map Prod.fst).Nodup)

/-- The number of queue keys not yet visited. -/
def unvis (queue : List (String × Schema)) (st : GenState) : Nat :=
  ((queue.map Prod.fst).filter (fun k => decide (k ∉ st.visited))).length

instance instDecRanked (edgesF : Schema → List String) (queue : List (String × Schema))
    (rank : String → Nat) : Decidable (rankedBy edgesF queue rank) := by
  have h : rankedBy edgesF queue rank ↔
      ∀ p ∈ queue, ∀ r ∈ edgesF p.2, rank p.1 < rank r := Iff.rfl
  exact decidable_of_iff _ h.symm

/-- Every per-definition class in `l` appears strictly after all the
traversed dependency targets of its schema. -/
def GoodL (queue : List (String × Schema)) (l : List String) : Prop :=
  ∀ l1 d l2, l = l1 ++ d :: l2 → ∀ r, edgeRel codeEdges queue d r → r ∈ l1

/-- The invariant carried through the order proof: every visited name
is either on the abstract recursion stack `S` or already emitted, and
the emitted list is dependency-ordered. -/
def InvO (queue : List (String × Schema)) (S : List String) (st : GenState) : Prop :=
  (∀ n ∈ st.visited, n ∈ S ∨ n ∈ defNames st.classes) ∧
    GoodL queue (defNames st.classes)

/-- Table for the C1 counterexample: `A` carries both an `allOf` key
(with a non-reference member) and a property `$ref` to `B`; the code's
`elif` skips the property branch when `allOf` is present. -/
def c1CexTable : List (String × Schema) :=
  [("A", .mk none none none (some [Schema.empty])
      (some [("p", .mk (some "#/definitions/B") none none none none none)]) none),
   ("B", Schema.empty)]

/-- Table for the C1 witness: `A` has a property `$ref` to `B`. -/
def c1WitTable : List (String × Schema) :=
  [("A", .mk none none none none
      (some [("p", .mk (some "#/definitions/B") none none none none none)]) none),
   ("B", Schema.empty)]


/- # Theorems -/

/- ## ASCII character facts -/

theorem toNat_ofNat_of_lt {n : Nat} (h : n < 55296) : (Char.ofNat n).toNat = n := by
  have hv : n.isValidChar := Or.inl h
  simp [Char.ofNat, hv, Char.ofNatAux, Char.toNat, UInt32.toNat]

theorem char_le_iff {m : Nat} (hm : m < 4294967296) (c : Char) :
    ((UInt32.ofNat m) ≤ c.val) ↔ m ≤ c.toNat := by
  constructor
  · exact UInt32.le_toNat_of_le hm
  · intro h; rw [UInt32.le_def, BitVec.le_def]
    have he : (UInt32.ofNat m).toBitVec.toNat = m := UInt32.toNat_ofNat_of_lt hm
    rw [he]; exact h

theorem char_ge_iff {m : Nat} (hm : m < 4294967296) (c : Char) :
    (c.val ≤ (UInt32.ofNat m)) ↔ c.toNat ≤ m := by
  constructor
  · exact UInt32.toNat_le_of_le hm
  · intro h; rw [UInt32.le_def, BitVec.le_def]
    have he : (UInt32.ofNat m).toBitVec.toNat = m := UInt32.toNat_ofNat_of_lt hm
    rw [he]; exact h

theorem isUpper_iff (c : Char) : c.isUpper = true ↔ 65 ≤ c.toNat ∧ c.toNat ≤ 90 := by
  simp only [Char.isUpper, Bool.and_eq_true, decide_eq_true_eq, ge_iff_le]
  rw [show ((65:UInt32) ≤ c.val) = ((UInt32.ofNat 65) ≤ c.val) from rfl]
  rw [show (c.val ≤ (90:UInt32)) = (c.val ≤ (UInt32.ofNat 90)) from rfl]
  rw [char_le_iff (by norm_num), char_ge_iff (by norm_num)]

theorem isLower_iff (c : Char) : c.isLower = true ↔ 97 ≤ c.toNat ∧ c.toNat ≤ 122 := by
  simp only [Char.isLower, Bool.and_eq_true, decide_eq_true_eq, ge_iff_le]
  rw [show ((97:UInt32) ≤ c.val) = ((UInt32.ofNat 97) ≤ c.val) from rfl]
  rw [show (c.val ≤ (122:UInt32)) = (c.val ≤ (UInt32.ofNat 122)) from rfl]
  rw [char_le_iff (by norm_num), char_ge_iff (by norm_num)]

theorem isDigit_iff (c : Char) : c.isDigit = true ↔ 48 ≤ c.toNat ∧ c.toNat ≤ 57 := by
  simp only [Char.isDigit, Bool.and_eq_true, decide_eq_true_eq, ge_iff_le]
  rw [show ((48:UInt32) ≤ c.val) = ((UInt32.ofNat 48) ≤ c.val) from rfl]
  rw [show (c.val ≤ (57:UInt32)) = (c.val ≤ (UInt32.ofNat 57)) from rfl]
  rw [char_le_iff (by norm_num), char_ge_iff (by norm_num)]

theorem toUpper_eq_of_lower (c : Char) (h : c.isLower = true) :
    Char.toUpper c = Char.ofNat (c.toNat - 32) := by
  have := (isLower_iff c).mp h
  simp [Char.toUpper, this.1, this.2]

theorem toUpper_eq_self (c : Char) (h : c.isLower = false) : Char.toUpper c = c := by
  have : ¬ (97 ≤ c.toNat ∧ c.toNat ≤ 122) := by
    intro hc; rw [← isLower_iff] at hc; simp [h] at hc
  simp [Char.toUpper, this]

theorem toUpper_toUpper (c : Char) : Char.toUpper (Char.toUpper c) = Char.toUpper c := by
  by_cases h : c.isLower = true
  · have h1 := (isLower_iff c).mp h
    rw [toUpper_eq_of_lower c h]
    apply toUpper_eq_self
    rw [Bool.eq_false_iff]
    intro hl
    have h2 := (isLower_iff _).mp hl
    rw [toNat_ofNat_of_lt (by omega)] at h2
    omega
  · rw [Bool.not_eq_true] at h
    rw [toUpper_eq_self c h, toUpper_eq_self c h]

theorem isAlphanum_toUpper (c : Char) (h : c.isAlphanum = true) :
    (Char.toUpper c).isAlphanum = true := by
  by_cases hl : c.isLower = true
  · have h1 := (isLower_iff c).mp hl
    rw [toUpper_eq_of_lower c hl]
    have ht : (Char.ofNat (c.toNat - 32)).toNat = c.toNat - 32 :=
      toNat_ofNat_of_lt (by omega)
    simp only [Char.isAlphanum, Char.isAlpha, Bool.or_eq_true]
    left; left
    rw [isUpper_iff, ht]
    omega
  · rw [Bool.not_eq_true] at hl
    rw [toUpper_eq_self c hl]; exact h

/- ## Normalizer lemmas -/

theorem filter_ne_map_subAlnum (l : List Char) :
    (l.map subAlnum).filter (fun c => c != '_') = l.filter (fun c => c.isAlphanum) := by
  induction l with
  | nil => rfl
  | cons c t ih =>
    by_cases h : c.isAlphanum = true
    · have hs : subAlnum c = c := by simp [subAlnum, h]
      have hne : (c != '_') = true := by
        rw [bne_iff_ne]; intro e; subst e; exact absurd h (by decide)
      simp [List.filter_cons, hs, hne, h, ih]
    · have hs : subAlnum c = '_' := by simp [subAlnum, h]
      have h' : c.isAlphanum = false := by simpa using h
      simp [List.filter_cons, hs, h', ih]

theorem filter_ne_lstrip (l : List Char) :
    (lstripC '_' l).filter (fun c => c != '_') = l.filter (fun c => c != '_') := by
  induction l with
  | nil => rfl
  | cons c t ih =>
    by_cases h : c = '_'
    · subst h; simpa [lstripC, List.filter_cons] using ih
    · have hne : (c != '_') = true := by rw [bne_iff_ne]; exact h
      simp [lstripC, h, List.filter_cons, hne]

theorem filter_ne_rstrip (l : List Char) :
    (rstripC '_' l).filter (fun c => c != '_') = l.filter (fun c => c != '_') := by
  induction l with
  | nil => rfl
  | cons c t ih =>
    cases hr : rstripC '_' t with
    | nil =>
      have ht : t.filter (fun c => c != '_') = [] := by rw [← ih, hr]; rfl
      by_cases h : c = '_'
      · subst h; simp [rstripC, hr, ht]
      · simp [rstripC, hr, h, ht]
    | cons x xs =>
      have htl : (x :: xs).filter (fun c => c != '_') = t.filter (fun c => c != '_') := by
        rw [← ih, hr]
      simp only [rstripC, hr]
      conv_lhs => rw [List.filter_cons]
      conv_rhs => rw [List.filter_cons]
      rw [htl]

theorem filter_ne_dedup (l : List Char) :
    (dedupDD l).filter (fun c => c != '_') = l.filter (fun c => c != '_') := by
  induction l using dedupDD.induct with
  | case1 => rfl
  | case2 c => rfl
  | case3 c d t h ih =>
    rcases h with ⟨h1, h2⟩
    subst h1; subst h2
    rw [show dedupDD ('_' :: '_' :: t) = '_' :: dedupDD t from by
      rw [dedupDD]; simp]
    simp [List.filter_cons, ih]
  | case4 c d t h ih =>
    rw [show dedupDD (c :: d :: t) = c :: dedupDD (d :: t) from by
      rw [dedupDD]; rw [if_neg h]]
    conv_lhs => rw [List.filter_cons]
    conv_rhs => rw [List.filter_cons]
    rw [ih]

theorem startsDigit_head (l : List Char) :
    startsDigit l = (match l.head? with | some c => c.isDigit | none => false) := by
  cases l <;> rfl

theorem dedup_head (l : List Char) : (dedupDD l).head? = l.head? := by
  cases l with
  | nil => rfl
  | cons c t =>
    cases t with
    | nil => rfl
    | cons d u =>
      by_cases h : c = '_' ∧ d = '_'
      · rcases h with ⟨h1, h2⟩; subst h1; subst h2
        rw [show dedupDD ('_' :: '_' :: u) = '_' :: dedupDD u from by
          rw [dedupDD]; simp]
        rfl
      · rw [show dedupDD (c :: d :: u) = c :: dedupDD (d :: u) from by
          rw [dedupDD]; rw [if_neg h]]
        rfl

theorem lstrip_head_cases (l : List Char) :
    (lstripC '_' l = [] ∧ l.filter (fun c => c != '_') = []) ∨
    (∃ c t, lstripC '_' l = c :: t ∧ c ≠ '_' ∧
      (l.filter (fun c => c != '_')).head? = some c) := by
  induction l with
  | nil => left; exact ⟨rfl, rfl⟩
  | cons c t ih =>
    by_cases h : c = '_'
    · subst h
      simpa [lstripC, List.filter_cons] using ih
    · right
      have hne : (c != '_') = true := by rw [bne_iff_ne]; exact h
      exact ⟨c, t, by simp [lstripC, h], h, by simp [List.filter_cons, hne]⟩

theorem rstrip_head_of_ne (c : Char) (t : List Char) (h : c ≠ '_') :
    (rstripC '_' (c :: t)).head? = some c := by
  cases hr : rstripC '_' t <;> simp [rstripC, hr, h]

theorem to_class_name_eq (s : String) : to_class_name s = classNameSpec s := by
  unfold to_class_name classNameSpec
  have hfil : (dedupDD (rstripC '_' (lstripC '_' (s.data.map subAlnum)))).filter
        (fun c => c != '_')
      = s.data.filter (fun c => c.isAlphanum) := by
    rw [filter_ne_dedup, filter_ne_rstrip, filter_ne_lstrip, filter_ne_map_subAlnum]
  have hsd : startsDigit (dedupDD (rstripC '_' (lstripC '_' (s.data.map subAlnum))))
      = startsDigit (s.data.filter (fun c => c.isAlphanum)) := by
    rcases lstrip_head_cases (s.data.map subAlnum) with ⟨h1, h2⟩ | ⟨c, t, h1, h2, h3⟩
    · rw [h1]
      have h4 : s.data.filter (fun c => c.isAlphanum) = [] := by
        rw [← filter_ne_map_subAlnum, h2]
      rw [h4]; rfl
    · rw [h1, startsDigit_head, dedup_head, rstrip_head_of_ne c t h2,
        startsDigit_head, ← filter_ne_map_subAlnum, h3]
  apply congrArg String.mk
  rw [hsd]
  by_cases hv : startsDigit (s.data.filter (fun c => c.isAlphanum)) = true
  · rw [if_pos hv, if_pos hv]
    simp [List.filter_cons, hfil]
  · rw [if_neg hv, if_neg hv]
    exact hfil

theorem subAlnum_of_alnum {c : Char} (h : c.isAlphanum = true) : subAlnum c = c := by
  simp [subAlnum, h]

theorem subAlnum_of_not_alnum {c : Char} (h : ¬ c.isAlphanum = true) :
    subAlnum c = '_' := by
  simp only [subAlnum, if_neg h]

theorem to_class_name_idem_aux (s : String) :
    classNameSpec (classNameSpec s) = classNameSpec s := by
  have hdata : ∀ l : List Char, (String.mk l).data = l := fun _ => rfl
  have htal : ∀ c ∈ s.data.filter (fun c => c.isAlphanum), c.isAlphanum = true := by
    intro c hc
    exact List.of_mem_filter hc
  by_cases hv : startsDigit (s.data.filter (fun c => c.isAlphanum)) = true
  · have e1 : classNameSpec s = String.mk ('s' :: s.data.filter (fun c => c.isAlphanum)) := by
      simp only [classNameSpec]; rw [if_pos hv]
    rw [e1]
    simp only [classNameSpec, hdata]
    have hall : ∀ c ∈ 's' :: s.data.filter (fun c => c.isAlphanum),
        (fun c => c.isAlphanum) c = true := by
      intro c hc
      rcases List.mem_cons.mp hc with h | h
      · subst h; decide
      · exact htal c h
    rw [List.filter_eq_self.mpr hall]
    rw [if_neg (by rw [show startsDigit ('s' :: s.data.filter (fun c => c.isAlphanum))
        = 's'.isDigit from rfl]; decide)]
  · have e1 : classNameSpec s = String.mk (s.data.filter (fun c => c.isAlphanum)) := by
      simp only [classNameSpec]; rw [if_neg hv]
    rw [e1]
    simp only [classNameSpec, hdata]
    rw [List.filter_eq_self.mpr htal]
    rw [if_neg hv]

theorem to_class_name_idem (s : String) :
    to_class_name (to_class_name s) = to_class_name s := by
  rw [to_class_name_eq s, to_class_name_eq (classNameSpec s), to_class_name_idem_aux]

theorem subWord_subWord (c : Char) : subWord (subWord c) = subWord c := by
  by_cases h : (c.isAlphanum || c = '_') = true
  · simp [subWord, h]
  · have h1 : subWord c = '_' := by
      simp only [subWord]
      rw [if_neg (by simpa using h)]
    rw [h1]; decide

theorem map_subWord_idem (l : List Char) :
    (l.map subWord).map subWord = l.map subWord := by
  induction l with
  | nil => rfl
  | cons c t ih =>
    simp only [List.map_cons]
    rw [subWord_subWord, ih]

theorem sanitize_field_idem (s : String) :
    sanitize_field (sanitize_field s) = sanitize_field s := by
  have hdata : ∀ l : List Char, (String.mk l).data = l := fun _ => rfl
  by_cases hd : startsDigit (s.data.map subWord) = true
  · have e1 : sanitize_field s = String.mk ('_' :: s.data.map subWord) := by
      simp only [sanitize_field]; rw [if_pos hd]
    rw [e1]
    simp only [sanitize_field, hdata, List.map_cons]
    rw [show subWord '_' = '_' from by decide, map_subWord_idem]
    rw [if_neg (by rw [show startsDigit ('_' :: s.data.map subWord)
        = '_'.isDigit from rfl]; decide)]
  · have e1 : sanitize_field s = String.mk (s.data.map subWord) := by
      simp only [sanitize_field]; rw [if_neg hd]
    rw [e1]
    simp only [sanitize_field, hdata, map_subWord_idem]
    rw [if_neg hd]

theorem gchar_idem (c : Char) :
    Char.toUpper (subAlnum (Char.toUpper (subAlnum c))) = Char.toUpper (subAlnum c) := by
  by_cases h : c.isAlphanum = true
  · rw [subAlnum_of_alnum h]
    rw [subAlnum_of_alnum (isAlphanum_toUpper c h), toUpper_toUpper]
  · rw [subAlnum_of_not_alnum h]; decide

theorem map_g_idem (l : List Char) :
    (((l.map subAlnum).map Char.toUpper).map subAlnum).map Char.toUpper
      = (l.map subAlnum).map Char.toUpper := by
  induction l with
  | nil => rfl
  | cons c t ih =>
    simp only [List.map_cons]
    rw [gchar_idem, ih]

theorem enum_member_idem (s : String) :
    enum_member (enum_member s) = enum_member s := by
  have hdata : ∀ l : List Char, (String.mk l).data = l := fun _ => rfl
  by_cases hd : startsDigit ((s.data.map subAlnum).map Char.toUpper) = true
  · have e1 : enum_member s
        = String.mk ('_' :: (s.data.map subAlnum).map Char.toUpper) := by
      simp only [enum_member]; rw [if_pos hd]
    rw [e1]
    simp only [enum_member, hdata, List.map_cons]
    rw [show Char.toUpper (subAlnum '_') = '_' from by decide, map_g_idem]
    rw [if_neg (by rw [show startsDigit ('_' :: (s.data.map subAlnum).map Char.toUpper)
        = '_'.isDigit from rfl]; decide)]
  · have e1 : enum_member s = String.mk ((s.data.map subAlnum).map Char.toUpper) := by
      simp only [enum_member]; rw [if_neg hd]
    rw [e1]
    simp only [enum_member, hdata, map_g_idem]
    rw [if_neg hd]

theorem enum_member_valid (v : String) (hv : v.data ≠ []) :
    validIdent (enum_member v) := by
  have hdata : ∀ l : List Char, (String.mk l).data = l := fun _ => rfl
  have hword : ∀ c ∈ (v.data.map subAlnum).map Char.toUpper,
      (c.isAlphanum || c = '_') = true := by
    intro c hc
    rcases List.mem_map.mp hc with ⟨b, hb, hbc⟩
    rcases List.mem_map.mp hb with ⟨a, _, hab⟩
    subst hbc; subst hab
    by_cases h : a.isAlphanum = true
    · rw [subAlnum_of_alnum h]
      simp [isAlphanum_toUpper a h]
    · rw [subAlnum_of_not_alnum h]; decide
  have hmne : (v.data.map subAlnum).map Char.toUpper ≠ [] := by
    intro he
    have h2 := List.map_eq_nil_iff.mp he
    exact hv (List.map_eq_nil_iff.mp h2)
  by_cases hd : startsDigit ((v.data.map subAlnum).map Char.toUpper) = true
  · have e1 : enum_member v
        = String.mk ('_' :: (v.data.map subAlnum).map Char.toUpper) := by
      simp only [enum_member]; rw [if_pos hd]
    rw [e1]
    unfold validIdent
    simp only [hdata]
    refine ⟨by simp, ?_, by rw [show startsDigit
        ('_' :: (v.data.map subAlnum).map Char.toUpper) = '_'.isDigit from rfl]; decide⟩
    rw [List.all_eq_true]
    intro c hc
    rcases List.mem_cons.mp hc with h | h
    · subst h; decide
    · have := hword c h
      simpa using this
  · have e1 : enum_member v = String.mk ((v.data.map subAlnum).map Char.toUpper) := by
      simp only [enum_member]; rw [if_neg hd]
    rw [e1]
    unfold validIdent
    simp only [hdata]
    refine ⟨hmne, ?_, by simpa using hd⟩
    rw [List.all_eq_true]
    intro c hc
    have := hword c hc
    simpa using this

/- ## Claims C4, C5, C6, C7, C8, C10 -/

/-- C4 (counterexample): `to_class_name` does not upper-case segment
boundaries: `to_class_name "Pet_status"` is `"Petstatus"`, not the
`"PetStatus"` the claim requires. -/
theorem C4_counterexample :
    to_class_name "Pet_status" = "Petstatus" ∧ "Petstatus" ≠ "PetStatus" := by
  decide

/-- C4 (amended): for every input string, the PascalCase conversion
strips every character outside `[A-Za-z0-9_]`, removes the
underscores, and returns the concatenation of the segments UNCHANGED
(no upper-casing of segment boundaries); if the first remaining
character is a digit the result is prefixed with the letter `s`.
Formally `to_class_name` agrees with the closed form
`classNameSpec`. -/
theorem C4_class_name_amended : ∀ s : String, to_class_name s = classNameSpec s :=
  to_class_name_eq

/-- C5 (counterexample): for the `Pet.status` enum property of
Example 1 the emitted field is
`status: Optional[Petstatus] = Petstatus` — the declared default is
the enum class name itself, not the first declared member
`PetStatus.AVAILABLE` required by the claim. -/
theorem C5_counterexample :
    field_line "Pet" "status"
        (.mk none (some "string") (some ["available", "sold"]) none none none)
      = "    status: Optional[Petstatus] = Petstatus" ∧
    "    status: Optional[Petstatus] = Petstatus" ≠
      "    status: PetStatus = PetStatus.AVAILABLE" := by
  constructor
  · rfl
  · decide

/-- C5 (amended): for every model property that declares an inline
enum (a `type` key and an `enum` key), the emitted field's declared
type and default value are both the synthesized enum name
`to_class_name (className ++ "_" ++ propName)` — the default is the
enum class itself, not its first member. -/
theorem C5_enum_default_amended (className pn t : String) (vs : List String) :
    field_line className pn (.mk none (some t) (some vs) none none none)
      = "    " ++ sanitize_field pn ++ ": Optional[" ++
          to_class_name (className ++ "_" ++ pn) ++ "] = " ++
          to_class_name (className ++ "_" ++ pn) := by
  rfl

/-- C6 (code bug): the generated method name ignores any declared
operation identifier, because the code reads `details.get("", ...)`
(the empty-string key) instead of `details.get("operationId", ...)`:
whatever `operationId` is declared, the name for `get /pets` is the
synthesized `"get_pets"`, never the snake-cased identifier (the claim
and spec require `"list_pets"` for `operationId = "listPets"`). -/
theorem C6_operation_id_ignored :
    (∀ opId : String, op_func_name [("operationId", opId)] "get" "/pets" = "get_pets") ∧
    to_snake_case "listPets" = "list_pets" := by
  constructor
  · intro opId; rfl
  · decide

/-- C7 (counterexample): `to_snake_case` is not idempotent: the `__`
collapsing replaces non-overlapping pairs only, so
`to_snake_case "a!!!!b" = "a__b"` but applying it again gives
`"a_b"`. -/
theorem C7_counterexample :
    to_snake_case (to_snake_case "a!!!!b") ≠ to_snake_case "a!!!!b" := by
  decide

/-- C7 (amended): the normalizers are total functions, and
`to_class_name`, `sanitize_field` and the enum-member sanitization are
idempotent; `to_snake_case` is total but NOT idempotent. -/
theorem C7_idem_amended : ∀ s : String,
    to_class_name (to_class_name s) = to_class_name s ∧
    sanitize_field (sanitize_field s) = sanitize_field s ∧
    enum_member (enum_member s) = enum_member s :=
  fun s => ⟨to_class_name_idem s, sanitize_field_idem s, enum_member_idem s⟩

/-- C8 (counterexample): two distinct raw enum values can map to the
same member identifier: `["a-b", "a+b"]` yields members
`["A_B", "A_B"]`, so member identifiers are not unique. -/
theorem C8_counterexample :
    create_enum_members ["a-b", "a+b"] = ["A_B", "A_B"] ∧
    ¬ (create_enum_members ["a-b", "a+b"]).Nodup := by
  decide

/-- C8 (amended): `create_enum` emits exactly one member per declared
value, and each member whose raw value is non-empty is a valid
identifier (alphanumeric/underscore, not starting with a digit);
uniqueness of member identifiers is NOT guaranteed. -/
theorem C8_enum_amended (values : List String) :
    (create_enum_members values).length = values.length ∧
    ∀ v ∈ values, v.data ≠ [] → validIdent (enum_member v) := by
  constructor
  · unfold create_enum_members; rw [List.length_map]
  · intro v _ hv
    exact enum_member_valid v hv

/-- Witness for C8 (amended) at Example 1's values. -/
theorem C8_enum_amended_witness :
    (create_enum_members ["available", "sold"]).length = 2 ∧
    validIdent (enum_member "sold") := by
  have h := C8_enum_amended ["available", "sold"]
  refine ⟨h.1.trans (by decide), h.2 "sold" (by decide) (by decide)⟩

/-- C10: the definition table is `components.schemas` whenever that
mapping is non-empty — `definitions` is then ignored entirely (the
result does not depend on it); `definitions` is consulted exactly when
`components.schemas` is absent or empty. -/
theorem C10_components_over_definitions :
    ∀ (cs ds ds' : List (String × Schema)),
      (cs ≠ [] → selectDefinitions cs ds = cs ∧
        selectDefinitions cs ds = selectDefinitions cs ds') ∧
      selectDefinitions [] ds = ds := by
  intro cs ds ds'
  constructor
  · intro h
    have hne : cs.isEmpty = false := by
      cases cs with
      | nil => exact absurd rfl h
      | cons a t => rfl
    unfold selectDefinitions
    rw [hne]
    exact ⟨rfl, rfl⟩
  · rfl

/-- Witness for C10 at a concrete pair of tables. -/
theorem C10_witness :
    selectDefinitions [("A", Schema.empty)] [("B", Schema.empty)] = [("A", Schema.empty)] :=
  ((C10_components_over_definitions [("A", Schema.empty)] [("B", Schema.empty)] []).1
    (List.cons_ne_nil _ _)).1

/- ## List/dict helper lemmas for the resolver -/

theorem countOcc_append (a b : List String) (x : String) :
    countOcc (a ++ b) x = countOcc a x + countOcc b x := by
  induction a with
  | nil => simp [countOcc]
  | cons y t ih => simp [countOcc, ih]; omega

theorem countOcc_pos_iff_mem (l : List String) (x : String) :
    0 < countOcc l x ↔ x ∈ l := by
  induction l with
  | nil => simp [countOcc]
  | cons y t ih =>
    by_cases h : y = x
    · subst h; simp [countOcc]
    · simp [countOcc, h, ih, Ne.symm h]

theorem countOcc_le_one_of_nodup (l : List String) (x : String) (h : l.Nodup) :
    countOcc l x ≤ 1 := by
  induction l with
  | nil => simp [countOcc]
  | cons y t ih =>
    rcases List.nodup_cons.mp h with ⟨hy, ht⟩
    by_cases he : y = x
    · subst he
      have : countOcc t y = 0 := by
        by_contra hc
        exact hy ((countOcc_pos_iff_mem t y).mp (Nat.pos_of_ne_zero hc))
      simp [countOcc, this]
    · rw [show countOcc (y :: t) x = countOcc t x from by simp [countOcc, he]]
      exact ih ht

theorem countOcc_eq_one_of_nodup_mem (l : List String) (x : String)
    (h : l.Nodup) (hm : x ∈ l) : countOcc l x = 1 := by
  have h1 := countOcc_le_one_of_nodup l x h
  have h2 := (countOcc_pos_iff_mem l x).mpr hm
  omega

theorem nodup_of_countOcc_le_one (l : List String)
    (h : ∀ x, countOcc l x ≤ 1) : l.Nodup := by
  induction l with
  | nil => exact List.nodup_nil
  | cons y t ih =>
    refine List.nodup_cons.mpr ⟨?_, ?_⟩
    · intro hm
      have h1 := (countOcc_pos_iff_mem t y).mpr hm
      have h2 := h y
      simp [countOcc] at h2
      omega
    · refine ih ?_
      intro x
      have h2 := h x
      simp [countOcc] at h2 ⊢
      by_cases he : y = x
      · subst he; simp at h2; omega
      · simp [he] at h2; omega

theorem defNames_append (a b : List EC) : defNames (a ++ b) = defNames a ++ defNames b := by
  unfold defNames
  exact List.filterMap_append a b _

theorem defNames_map_inl (l : List String) : defNames (l.map EC.inlC) = [] := by
  induction l with
  | nil => rfl
  | cons x t _ => simp [defNames]

theorem dlookup_mem_pair {α : Type} (l : List (String × α)) (k : String) (v : α)
    (h : dlookup l k = some v) : (k, v) ∈ l := by
  induction l with
  | nil => cases h
  | cons p t ih =>
    rcases p with ⟨k', v'⟩
    by_cases he : k' = k
    · subst he
      simp [dlookup] at h
      subst h
      exact List.mem_cons_self _ _
    · simp [dlookup, he] at h
      exact List.mem_cons_of_mem _ (ih h)

theorem dlookup_some_mem_keys {α : Type} (l : List (String × α)) (k : String) (v : α)
    (h : dlookup l k = some v) : k ∈ l.map Prod.fst := by
  have := dlookup_mem_pair l k v h
  exact List.mem_map.mpr ⟨(k, v), this, rfl⟩

theorem dlookup_none_not_mem {α : Type} (l : List (String × α)) (k : String)
    (h : dlookup l k = none) : k ∉ l.map Prod.fst := by
  induction l with
  | nil => simp
  | cons p t ih =>
    rcases p with ⟨k', v'⟩
    by_cases he : k' = k
    · subst he; simp [dlookup] at h
    · simp [dlookup, he] at h
      simp only [List.map_cons]
      intro hm
      rcases List.mem_cons.mp hm with h1 | h1
      · exact he h1.symm
      · exact ih h h1

theorem dictInsert_keys_nodup {α : Type} (l : List (String × α)) (k : String) (v : α)
    (h : (l.map Prod.fst).Nodup) : ((dictInsert l k v).map Prod.fst).Nodup := by
  unfold dictInsert
  by_cases hs : (dlookup l k).isSome = true
  · rw [if_pos hs]
    have : (l.map (fun kv => if kv.1 = k then (k, v) else kv)).map Prod.fst
        = l.map Prod.fst := by
      rw [List.map_map]
      apply List.map_congr_left
      intro kv _
      by_cases he : kv.1 = k
      · simp [he]
      · simp [he]
    rw [this]; exact h
  · rw [if_neg hs]
    have hnm : k ∉ l.map Prod.fst := by
      apply dlookup_none_not_mem
      cases hlk : dlookup l k with
      | none => rfl
      | some v' => rw [hlk] at hs; simp at hs
    rw [List.map_append]
    simp only [List.map_cons, List.map_nil]
    rw [List.nodup_append]
    exact ⟨h, List.nodup_singleton _, by
      intro a ha hb
      simp at hb
      subst hb
      exact hnm ha⟩

theorem buildQueue_keys_nodup (rawDefs : List (String × Schema)) :
    ((buildQueue rawDefs).map Prod.fst).Nodup := by
  unfold buildQueue
  suffices h : ∀ (q : List (String × Schema)), (q.map Prod.fst).Nodup →
      ((rawDefs.foldl (fun q p => dictInsert q (to_class_name p.1) p.2) q).map Prod.fst).Nodup by
    exact h [] List.nodup_nil
  induction rawDefs with
  | nil => intro q hq; exact hq
  | cons p t ih =>
    intro q hq
    exact ih _ (dictInsert_keys_nodup q _ _ hq)

/- ## The resolver growth invariant -/

theorem RGrow_refl (queue : List (String × Schema)) (st : GenState) :
    RGrow queue st st := by
  refine ⟨[], [], rfl, List.nodup_nil, by simp, (List.append_nil _).symm, ?_, id⟩
  intro x; rfl

theorem RGrow_vis_sub {queue : List (String × Schema)} {st st' : GenState}
    (h : RGrow queue st st') : st.visited ⊆ st'.visited := by
  rcases h with ⟨new, Δ, hv, -, -, -, -, -⟩
  rw [hv]
  exact List.subset_append_right _ _

theorem RGrow_cls_sub {queue : List (String × Schema)} {st st' : GenState}
    (h : RGrow queue st st') : ∃ Δ, st'.classes = st.classes ++ Δ := by
  rcases h with ⟨new, Δ, -, -, -, hc, -, -⟩
  exact ⟨Δ, hc⟩

theorem RGrow_trans {queue : List (String × Schema)} {s1 s2 s3 : GenState}
    (h12 : RGrow queue s1 s2) (h23 : RGrow queue s2 s3) : RGrow queue s1 s3 := by
  rcases h12 with ⟨n1, d1, hv1, hn1, hf1, hc1, hm1, he1⟩
  rcases h23 with ⟨n2, d2, hv2, hn2, hf2, hc2, hm2, he2⟩
  refine ⟨n2 ++ n1, d1 ++ d2, ?_, ?_, ?_, ?_, ?_, fun h => he2 (he1 h)⟩
  · rw [hv2, hv1, List.append_assoc]
  · rw [List.nodup_append]
    refine ⟨hn2, hn1, ?_⟩
    intro a ha hb
    have h1 := (hf2 a ha).1
    rw [hv1] at h1
    exact h1 (List.mem_append.mpr (Or.inl hb))
  · intro n hn
    rcases List.mem_append.mp hn with h | h
    · have h1 := hf2 n h
      refine ⟨?_, h1.2⟩
      intro hm
      exact h1.1 (RGrow_vis_sub ⟨n1, d1, hv1, hn1, hf1, hc1, hm1, he1⟩ hm)
    · have h1 := hf1 n h
      refine ⟨h1.1, ?_⟩
      rcases h1.2 with ⟨s, hl, hr⟩
      refine ⟨s, hl, ?_⟩
      intro r hrm
      exact RGrow_vis_sub ⟨n2, d2, hv2, hn2, hf2, hc2, hm2, he2⟩ (hr r hrm)
  · rw [hc2, hc1, List.append_assoc]
  · intro x
    rw [defNames_append, countOcc_append, countOcc_append, hm1, hm2]
    omega

theorem RGrow_classes_inl (queue : List (String × Schema)) (s : GenState)
    (ee : Eenums) (inl : List String) (nm : String)
    (hee : (s.eenums.map Prod.fst).Nodup → (ee.map Prod.fst).Nodup) :
    RGrow queue s
      { s with eenums := ee,
               classes := s.classes ++ inl.map EC.inlC ++ [EC.inlC nm] } := by
  refine ⟨[], inl.map EC.inlC ++ [EC.inlC nm], rfl, List.nodup_nil, by simp, ?_, ?_, hee⟩
  · simp [List.append_assoc]
  · intro x
    rw [defNames_append, countOcc_append, defNames_map_inl]
    rfl

/- ## existing_enums key discipline in create_dataclass -/

theorem cdProps_eenums_nodup
    (rec : String → Schema → Eenums → Except Err (Eenums × List String))
    (hrec : ∀ n sc ee ee' inl, rec n sc ee = .ok (ee', inl) →
      ((ee.map Prod.fst).Nodup → (ee'.map Prod.fst).Nodup))
    (name : String) :
    ∀ (props : List (String × Schema)) (ee : Eenums) (acc : List String)
      (ee' : Eenums) (inl : List String),
      cdProps rec name props ee acc = .ok (ee', inl) →
      ((ee.map Prod.fst).Nodup → (ee'.map Prod.fst).Nodup) := by
  intro props
  induction props with
  | nil =>
    intro ee acc ee' inl h
    simp only [cdProps] at h
    cases h
    exact id
  | cons pp rest ih =>
    rcases pp with ⟨pn, prop⟩
    intro ee acc ee' inl h
    simp only [cdProps] at h
    by_cases h1 : prop.ref.isSome = true
    · rw [if_pos h1] at h
      exact ih ee acc ee' inl h
    · rw [if_neg h1] at h
      cases hty : prop.ty with
      | none =>
        simp only [hty] at h
        exact ih ee acc ee' inl h
      | some t =>
        simp only [hty] at h
        by_cases h2 : prop.enumV.isSome = true
        · rw [if_pos h2] at h
          intro hnd
          exact ih _ acc ee' inl h (dictInsert_keys_nodup ee _ _ hnd)
        · rw [if_neg h2] at h
          by_cases h3 : t = "array"
          · rw [if_pos h3] at h
            by_cases h4 : (prop.itemsV.getD Schema.empty).ref.isSome = true
            · rw [if_pos h4] at h
              exact ih ee acc ee' inl h
            · rw [if_neg h4] at h
              cases hit : (prop.itemsV.getD Schema.empty).ty with
              | none =>
                simp only [hit] at h
                exact ih ee acc ee' inl h
              | some it =>
                simp only [hit] at h
                by_cases h5 : it = "object" ∧ (prop.itemsV.getD Schema.empty).propsV.isSome = true
                · rw [if_pos h5] at h
                  cases hrc : rec (to_class_name (name ++ "_" ++ pn ++ "_Item"))
                      (prop.itemsV.getD Schema.empty) ee with
                  | error e => simp only [hrc] at h; cases h
                  | ok p =>
                    rcases p with ⟨ee2, inner⟩
                    simp only [hrc] at h
                    intro hnd
                    exact ih ee2 _ ee' inl h (hrec _ _ _ _ _ hrc hnd)
                · rw [if_neg h5] at h
                  exact ih ee acc ee' inl h
          · rw [if_neg h3] at h
            exact ih ee acc ee' inl h

theorem cd_eenums_nodup (defs : List (String × Schema)) :
    ∀ (fuel : Nat) (name : String) (sc : Schema) (ee ee' : Eenums) (inl : List String),
      create_dataclass_fx defs fuel name sc ee = .ok (ee', inl) →
      ((ee.map Prod.fst).Nodup → (ee'.map Prod.fst).Nodup) := by
  intro fuel
  induction fuel with
  | zero => intro name sc ee ee' inl h; cases h
  | succ fuel ih =>
    intro name sc ee ee' inl h
    simp only [create_dataclass_fx] at h
    by_cases h1 : sc.ty = some "array" ∧ sc.itemsV.isSome = true
    · rw [if_pos h1] at h
      cases h
      exact id
    · rw [if_neg h1] at h
      exact cdProps_eenums_nodup _ (fun n sc' ee1 ee2 inl2 hh => ih n sc' ee1 ee2 inl2 hh)
        name _ ee [] ee' inl h

/- ## Target-list unfolding lemmas -/

theorem refTargets_cons_some {item : Schema} {r : String} (rest : List Schema)
    (h : item.ref = some r) :
    refTargets (item :: rest) = to_class_name (lastSegment r) :: refTargets rest := by
  unfold refTargets
  rw [List.filterMap_cons, h]
  rfl

theorem refTargets_cons_none {item : Schema} (rest : List Schema)
    (h : item.ref = none) :
    refTargets (item :: rest) = refTargets rest := by
  unfold refTargets
  rw [List.filterMap_cons, h]
  rfl

theorem propTargets_cons_ref {pp : String × Schema} {r : String}
    (rest : List (String × Schema)) (h : pp.2.ref = some r) :
    propTargets (pp :: rest) = to_class_name (lastSegment r) :: propTargets rest := by
  unfold propTargets
  rw [List.filterMap_cons]
  simp only [h]

theorem propTargets_cons_arr_ref {pp : String × Schema} {r : String}
    (rest : List (String × Schema)) (h : pp.2.ref = none)
    (ha : pp.2.ty = some "array")
    (hi : (pp.2.itemsV.getD Schema.empty).ref = some r) :
    propTargets (pp :: rest) = to_class_name (lastSegment r) :: propTargets rest := by
  unfold propTargets
  rw [List.filterMap_cons]
  simp only [h, if_pos ha, hi]
  rfl

theorem propTargets_cons_skip {pp : String × Schema}
    (rest : List (String × Schema)) (h : pp.2.ref = none)
    (hsk : pp.2.ty ≠ some "array" ∨ (pp.2.itemsV.getD Schema.empty).ref = none) :
    propTargets (pp :: rest) = propTargets rest := by
  unfold propTargets
  rw [List.filterMap_cons]
  rcases hsk with hsk | hsk
  · by_cases ha : pp.2.ty = some "array"
    · exact absurd ha hsk
    · simp only [h, if_neg ha]
  · by_cases ha : pp.2.ty = some "array"
    · simp only [h, if_pos ha, hsk]
      rfl
    · simp only [h, if_neg ha]

/- ## Loop lemmas (growth) -/

theorem loopAllOf_RGrow
    (queue : List (String × Schema))
    (f : GenState → String → Except Err GenState)
    (hf : ∀ s c s', f s c = .ok s' → RGrow queue s s' ∧ c ∈ s'.visited) :
    ∀ (l : List Schema) (s s' : GenState),
      loopAllOf f l s = .ok s' →
      RGrow queue s s' ∧ ∀ r ∈ refTargets l, r ∈ s'.visited := by
  intro l
  induction l with
  | nil =>
    intro s s' h
    simp only [loopAllOf] at h
    cases h
    exact ⟨RGrow_refl queue s, by intro r hr; cases hr⟩
  | cons item rest ih =>
    intro s s' h
    simp only [loopAllOf] at h
    cases hIr : item.ref with
    | none =>
      simp only [hIr] at h
      have h2 := ih s s' h
      rw [refTargets_cons_none rest hIr]
      exact h2
    | some r =>
      simp only [hIr] at h
      cases hf1 : f s (to_class_name (lastSegment r)) with
      | error e => simp only [hf1] at h; cases h
      | ok s2 =>
        simp only [hf1] at h
        have h2 := hf _ _ _ hf1
        have h3 := ih s2 s' h
        rw [refTargets_cons_some rest hIr]
        refine ⟨RGrow_trans h2.1 h3.1, ?_⟩
        intro x hx
        rcases List.mem_cons.mp hx with hx | hx
        · subst hx
          exact RGrow_vis_sub h3.1 h2.2
        · exact h3.2 x hx

theorem loopProps_RGrow
    (defs queue : List (String × Schema)) (cdFuel : Nat) (cname : String)
    (f : GenState → String → Except Err GenState)
    (hf : ∀ s c s', f s c = .ok s' → RGrow queue s s' ∧ c ∈ s'.visited) :
    ∀ (props : List (String × Schema)) (s s' : GenState),
      loopProps defs cdFuel cname f props s = .ok s' →
      RGrow queue s s' ∧ ∀ r ∈ propTargets props, r ∈ s'.visited := by
  intro props
  induction props with
  | nil =>
    intro s s' h
    simp only [loopProps] at h
    cases h
    exact ⟨RGrow_refl queue s, by intro r hr; cases hr⟩
  | cons pp rest ih =>
    rcases pp with ⟨pn, prop⟩
    intro s s' h
    simp only [loopProps] at h
    cases hIr : prop.ref with
    | some r =>
      simp only [hIr] at h
      cases hf1 : f s (to_class_name (lastSegment r)) with
      | error e => simp only [hf1] at h; cases h
      | ok s2 =>
        simp only [hf1] at h
        have h2 := hf _ _ _ hf1
        have h3 := ih s2 s' h
        rw [propTargets_cons_ref rest (show (pn, prop).2.ref = some r from hIr)]
        refine ⟨RGrow_trans h2.1 h3.1, ?_⟩
        intro x hx
        rcases List.mem_cons.mp hx with hx | hx
        · subst hx
          exact RGrow_vis_sub h3.1 h2.2
        · exact h3.2 x hx
    | none =>
      simp only [hIr] at h
      by_cases ha : prop.ty = some "array"
      · rw [if_pos ha] at h
        cases hitr : (prop.itemsV.getD Schema.empty).ref with
        | some r =>
          simp only [hitr] at h
          cases hf1 : f s (to_class_name (lastSegment r)) with
          | error e => simp only [hf1] at h; cases h
          | ok s2 =>
            simp only [hf1] at h
            have h2 := hf _ _ _ hf1
            have h3 := ih s2 s' h
            rw [propTargets_cons_arr_ref rest (show (pn, prop).2.ref = none from hIr) ha hitr]
            refine ⟨RGrow_trans h2.1 h3.1, ?_⟩
            intro x hx
            rcases List.mem_cons.mp hx with hx | hx
            · subst hx
              exact RGrow_vis_sub h3.1 h2.2
            · exact h3.2 x hx
        | none =>
          simp only [hitr] at h
          by_cases ho : (prop.itemsV.getD Schema.empty).ty = some "object"
          · rw [if_pos ho] at h
            cases hcd : create_dataclass_fx defs cdFuel
                (to_class_name (cname ++ "_inline"))
                (prop.itemsV.getD Schema.empty) s.eenums with
            | error e => simp only [hcd] at h; cases h
            | ok p =>
              rcases p with ⟨ee, inl⟩
              simp only [hcd] at h
              have h2 : RGrow queue s
                  { s with eenums := ee,
                           classes := s.classes ++ inl.map EC.inlC ++
                             [EC.inlC (to_class_name (cname ++ "_inline"))] } :=
                RGrow_classes_inl queue s ee inl _
                  (cd_eenums_nodup defs cdFuel _ _ _ _ _ hcd)
              have h3 := ih _ s' h
              rw [propTargets_cons_skip rest (show (pn, prop).2.ref = none from hIr)
                (Or.inr hitr)]
              exact ⟨RGrow_trans h2 h3.1, h3.2⟩
          · rw [if_neg ho] at h
            have h3 := ih s s' h
            rw [propTargets_cons_skip rest (show (pn, prop).2.ref = none from hIr)
              (Or.inr hitr)]
            exact h3
      · rw [if_neg ha] at h
        have h3 := ih s s' h
        rw [propTargets_cons_skip rest (show (pn, prop).2.ref = none from hIr)
          (Or.inl ha)]
        exact h3

/- ## Master lemma: every successful resolver call satisfies RGrow -/

theorem resolve_RGrow (defs queue : List (String × Schema)) (cdFuel : Nat) :
    ∀ (fuel : Nat) (st : GenState) (c : String) (st' : GenState),
      resolve_dependencies defs queue cdFuel fuel st c = .ok st' →
      RGrow queue st st' ∧ c ∈ st'.visited := by
  intro fuel
  induction fuel with
  | zero => intro st c st' h; cases h
  | succ fuel ih =>
    intro st c st' h
    simp only [resolve_dependencies] at h
    by_cases hv : c ∈ st.visited
    · rw [if_pos hv] at h
      cases h
      exact ⟨RGrow_refl queue st, hv⟩
    · rw [if_neg hv] at h
      cases hlk : dlookup queue c with
      | none => simp only [hlk] at h; cases h
      | some schema =>
        simp only [hlk] at h
        -- name the two intermediate states
        set st2 : GenState :=
          (if schema.enumV.isSome then
            { st with visited := c :: st.visited,
                      enums := st.enums ++ [c] }
          else { st with visited := c :: st.visited }) with hst2
        have hst2v : st2.visited = c :: st.visited := by
          rw [hst2]; by_cases he : schema.enumV.isSome = true
          · rw [if_pos he]
          · rw [if_neg he]
        have hst2c : st2.classes = st.classes := by
          rw [hst2]; by_cases he : schema.enumV.isSome = true
          · rw [if_pos he]
          · rw [if_neg he]
        have hst2e : st2.eenums = st.eenums := by
          rw [hst2]; by_cases he : schema.enumV.isSome = true
          · rw [if_pos he]
          · rw [if_neg he]
        -- the loop step
        have hloop : ∀ st3 : GenState,
            (match schema.allOfV with
             | some l => loopAllOf (resolve_dependencies defs queue cdFuel fuel) l st2
             | none =>
               match schema.propsV with
               | some props =>
                 loopProps defs cdFuel c
                   (resolve_dependencies defs queue cdFuel fuel) props st2
               | none => .ok st2) = .ok st3 →
            RGrow queue st2 st3 ∧ ∀ r ∈ codeEdges schema, r ∈ st3.visited := by
          intro st3 hm
          cases hao : schema.allOfV with
          | some l =>
            simp only [hao] at hm
            have := loopAllOf_RGrow queue _ (fun s c' s' hh => ih s c' s' hh) l st2 st3 hm
            unfold codeEdges
            rw [hao]
            exact this
          | none =>
            simp only [hao] at hm
            cases hpr : schema.propsV with
            | some props =>
              simp only [hpr] at hm
              have := loopProps_RGrow defs queue cdFuel c _
                (fun s c' s' hh => ih s c' s' hh) props st2 st3 hm
              unfold codeEdges
              rw [hao, hpr]
              exact this
            | none =>
              simp only [hpr] at hm
              cases hm
              refine ⟨RGrow_refl queue st2, ?_⟩
              unfold codeEdges
              rw [hao, hpr]
              intro r hr
              cases hr
        -- dissect h
        cases hal : (match schema.allOfV with
             | some l => loopAllOf (resolve_dependencies defs queue cdFuel fuel) l st2
             | none =>
               match schema.propsV with
               | some props =>
                 loopProps defs cdFuel c
                   (resolve_dependencies defs queue cdFuel fuel) props st2
               | none => .ok st2) with
        | error e => simp only [hal] at h; cases h
        | ok st3 =>
          simp only [hal] at h
          rcases hloop st3 hal with ⟨hg23, hedges⟩
          cases hcd : create_dataclass_fx defs cdFuel c schema st3.eenums with
          | error e => simp only [hcd] at h; cases h
          | ok p =>
            rcases p with ⟨ee, inl⟩
            simp only [hcd] at h
            cases h
            -- st' = { st3 with eenums := ee, classes := st3.classes ++ ... }
            rcases hg23 with ⟨n3, d3, hv3, hn3, hf3, hc3, hm3, he3⟩
            rw [hst2v] at hv3
            rw [hst2c] at hc3
            constructor
            · refine ⟨n3 ++ [c], d3 ++ (inl.map EC.inlC ++ [EC.defC c]), ?_, ?_, ?_, ?_, ?_, ?_⟩
              · show st3.visited = (n3 ++ [c]) ++ st.visited
                rw [hv3, List.append_assoc]
                rfl
              · rw [List.nodup_append]
                refine ⟨hn3, List.nodup_singleton _, ?_⟩
                intro a ha hb
                simp only [List.mem_singleton] at hb
                subst hb
                have := (hf3 a ha).1
                rw [hst2v] at this
                exact this (List.mem_cons_self _ _)
              · intro n hn
                rcases List.mem_append.mp hn with hn | hn
                · have h1 := hf3 n hn
                  refine ⟨?_, h1.2⟩
                  intro hm
                  have := h1.1
                  rw [hst2v] at this
                  exact this (List.mem_cons_of_mem _ hm)
                · simp only [List.mem_singleton] at hn
                  subst hn
                  refine ⟨hv, schema, hlk, ?_⟩
                  intro r hr
                  exact hedges r hr
              · show st3.classes ++ inl.map EC.inlC ++ [EC.defC c]
                    = st.classes ++ (d3 ++ (inl.map EC.inlC ++ [EC.defC c]))
                rw [hc3]
                simp [List.append_assoc]
              · intro x
                rw [defNames_append, countOcc_append, hm3, defNames_append,
                  defNames_map_inl, countOcc_append]
                show countOcc n3 x + (countOcc [] x + countOcc (defNames [EC.defC c]) x)
                    = countOcc (n3 ++ [c]) x
                rw [countOcc_append]
                simp [countOcc, defNames]
              · intro hnd
                rw [hst2e] at he3
                exact cd_eenums_nodup defs cdFuel _ _ _ _ _ hcd (he3 hnd)
            · show c ∈ st3.visited
              rw [hv3]
              exact List.mem_append.mpr (Or.inr (List.mem_cons_self _ _))

/- ## Run-level growth -/

theorem runLoop_RGrow
    (queue : List (String × Schema))
    (step : GenState → String → Except Err GenState)
    (hstep : ∀ s c s', step s c = .ok s' → RGrow queue s s' ∧ c ∈ s'.visited) :
    ∀ (names : List String) (s s' : GenState),
      runLoop step names s = .ok s' →
      RGrow queue s s' ∧ ∀ c ∈ names, c ∈ s'.visited := by
  intro names
  induction names with
  | nil =>
    intro s s' h
    simp only [runLoop] at h
    cases h
    exact ⟨RGrow_refl queue s, by intro c hc; cases hc⟩
  | cons c rest ih =>
    intro s s' h
    simp only [runLoop] at h
    cases h1 : step s c with
    | error e => simp only [h1] at h; cases h
    | ok s2 =>
      simp only [h1] at h
      have h2 := hstep _ _ _ h1
      have h3 := ih s2 s' h
      refine ⟨RGrow_trans h2.1 h3.1, ?_⟩
      intro x hx
      rcases List.mem_cons.mp hx with hx | hx
      · subst hx
        exact RGrow_vis_sub h3.1 h2.2
      · exact h3.2 x hx

/-- Everything a successful full resolver run guarantees. -/
theorem runResolver_ok_facts (rawDefs : List (String × Schema)) (cdFuel : Nat)
    (st : GenState) (h : runResolver rawDefs cdFuel = .ok st) :
    (∀ n ∈ st.visited, ∃ s, dlookup (buildQueue rawDefs) n = some s ∧
      ∀ r ∈ codeEdges s, r ∈ st.visited) ∧
    st.visited.Nodup ∧
    (∀ k ∈ (buildQueue rawDefs).map Prod.fst, k ∈ st.visited) ∧
    (∀ x, countOcc (defNames st.classes) x = countOcc st.visited x) ∧
    ((st.eenums.map Prod.fst).Nodup) := by
  unfold runResolver at h
  have hrun := runLoop_RGrow (buildQueue rawDefs) _
    (fun s c s' hh => resolve_RGrow rawDefs (buildQueue rawDefs) cdFuel _ s c s' hh)
    ((buildQueue rawDefs).map Prod.fst) initState st h
  rcases hrun with ⟨⟨new, Δ, hv, hn, hf, hc, hm, he⟩, hkeys⟩
  have hv' : st.visited = new := by rw [hv]; simp [initState]
  have hc' : st.classes = Δ := by rw [hc]; simp [initState]
  refine ⟨?_, ?_, hkeys, ?_, ?_⟩
  · intro n hn2
    rw [hv'] at hn2
    rcases hf n hn2 with ⟨-, s, hl, hr⟩
    exact ⟨s, hl, hr⟩
  · rw [hv']; exact hn
  · intro x
    rw [hc', hv']
    exact hm x
  · exact he (by simp [initState])

/- ## Fuel sufficiency for the reference-traversal recursion -/

theorem filter_length_mono {α : Type} (p q : α → Bool) (l : List α)
    (h : ∀ a, p a = true → q a = true) :
    (l.filter p).length ≤ (l.filter q).length := by
  induction l with
  | nil => simp
  | cons a t ih =>
    by_cases hp : p a = true
    · rw [List.filter_cons, if_pos hp, List.filter_cons, if_pos (h a hp)]
      simpa using ih
    · rw [List.filter_cons, if_neg hp]
      rw [List.filter_cons]
      by_cases hq : q a = true
      · rw [if_pos hq]
        simp only [List.length_cons]
        omega
      · rw [if_neg hq]
        exact ih

theorem filter_length_lt {α : Type} (p q : α → Bool) (l : List α) (c : α)
    (hm : c ∈ l) (hp : p c = false) (hq : q c = true)
    (h : ∀ a, p a = true → q a = true) :
    (l.filter p).length < (l.filter q).length := by
  induction l with
  | nil => cases hm
  | cons a t ih =>
    rcases List.mem_cons.mp hm with he | hmt
    · subst he
      rw [List.filter_cons, if_neg (by rw [hp]; simp), List.filter_cons, if_pos hq]
      simp only [List.length_cons]
      have := filter_length_mono p q t h
      omega
    · by_cases hpa : p a = true
      · rw [List.filter_cons, if_pos hpa, List.filter_cons, if_pos (h a hpa)]
        simp only [List.length_cons]
        have := ih hmt
        omega
      · rw [List.filter_cons, if_neg hpa, List.filter_cons]
        by_cases hqa : q a = true
        · rw [if_pos hqa]
          simp only [List.length_cons]
          have := ih hmt
          omega
        · rw [if_neg hqa]
          exact ih hmt

theorem unvis_mono (queue : List (String × Schema)) {st st' : GenState}
    (h : st.visited ⊆ st'.visited) : unvis queue st' ≤ unvis queue st := by
  apply filter_length_mono
  intro a ha
  simp only [decide_eq_true_eq] at ha ⊢
  intro hm
  exact ha (h hm)

theorem unvis_lt (queue : List (String × Schema)) {st st' : GenState} {c : String}
    (hm : c ∈ queue.map Prod.fst) (hnv : c ∉ st.visited)
    (hv : st'.visited = c :: st.visited) : unvis queue st' < unvis queue st := by
  apply filter_length_lt _ _ _ c hm
  · simp only [decide_eq_false_iff_not, Decidable.not_not]
    rw [hv]
    exact List.mem_cons_self _ _
  · simpa using hnv
  · intro a ha
    simp only [decide_eq_true_eq] at ha ⊢
    intro hmm
    rw [hv] at ha
    exact ha (List.mem_cons_of_mem _ hmm)

theorem cd_error_is_fuelInline (defs : List (String × Schema)) :
    ∀ (fuel : Nat) (name : String) (sc : Schema) (ee : Eenums) (e : Err),
      create_dataclass_fx defs fuel name sc ee = .error e → e = .fuelInline := by
  have main : ∀ (fuel : Nat),
      (∀ (name : String) (sc : Schema) (ee : Eenums) (e : Err),
        create_dataclass_fx defs fuel name sc ee = .error e → e = .fuelInline) := by
    intro fuel
    induction fuel with
    | zero =>
      intro name sc ee e h
      simp only [create_dataclass_fx] at h
      cases h
      rfl
    | succ fuel ih =>
      intro name sc ee e h
      simp only [create_dataclass_fx] at h
      by_cases h1 : sc.ty = some "array" ∧ sc.itemsV.isSome = true
      · rw [if_pos h1] at h; cases h
      · rw [if_neg h1] at h
        -- h is a cdProps run; prove the generic cdProps fact inline
        suffices hgen : ∀ (props : List (String × Schema)) (ee2 : Eenums)
            (acc : List String) (e2 : Err),
            cdProps (create_dataclass_fx defs fuel) name props ee2 acc = .error e2 →
            e2 = .fuelInline by
          exact hgen _ ee [] e h
        intro props
        induction props with
        | nil =>
          intro ee2 acc e2 hh
          simp only [cdProps] at hh
          cases hh
        | cons pp rest ihp =>
          rcases pp with ⟨pn, prop⟩
          intro ee2 acc e2 hh
          simp only [cdProps] at hh
          by_cases hr1 : prop.ref.isSome = true
          · rw [if_pos hr1] at hh
            exact ihp ee2 acc e2 hh
          · rw [if_neg hr1] at hh
            cases hty : prop.ty with
            | none =>
              simp only [hty] at hh
              exact ihp ee2 acc e2 hh
            | some t =>
              simp only [hty] at hh
              by_cases h2 : prop.enumV.isSome = true
              · rw [if_pos h2] at hh
                exact ihp _ acc e2 hh
              · rw [if_neg h2] at hh
                by_cases h3 : t = "array"
                · rw [if_pos h3] at hh
                  by_cases h4 : (prop.itemsV.getD Schema.empty).ref.isSome = true
                  · rw [if_pos h4] at hh
                    exact ihp ee2 acc e2 hh
                  · rw [if_neg h4] at hh
                    cases hit : (prop.itemsV.getD Schema.empty).ty with
                    | none =>
                      simp only [hit] at hh
                      exact ihp ee2 acc e2 hh
                    | some it =>
                      simp only [hit] at hh
                      by_cases h5 : it = "object" ∧
                          (prop.itemsV.getD Schema.empty).propsV.isSome = true
                      · rw [if_pos h5] at hh
                        cases hrc : create_dataclass_fx defs fuel
                            (to_class_name (name ++ "_" ++ pn ++ "_Item"))
                            (prop.itemsV.getD Schema.empty) ee2 with
                        | error e3 =>
                          simp only [hrc] at hh
                          cases hh
                          exact ih _ _ _ _ hrc
                        | ok p =>
                          rcases p with ⟨ee3, inner⟩
                          simp only [hrc] at hh
                          exact ihp ee3 _ e2 hh
                      · rw [if_neg h5] at hh
                        exact ihp ee2 acc e2 hh
                · rw [if_neg h3] at hh
                  exact ihp ee2 acc e2 hh
  exact main

theorem loopAllOf_no_fr
    (queue : List (String × Schema))
    (f : GenState → String → Except Err GenState) (B : Nat)
    (hfg : ∀ s c s', f s c = .ok s' → RGrow queue s s' ∧ c ∈ s'.visited)
    (hfe : ∀ s c, unvis queue s ≤ B → ∀ e, f s c = .error e → e ≠ .fuelResolve) :
    ∀ (l : List Schema) (s : GenState), unvis queue s ≤ B →
      ∀ e, loopAllOf f l s = .error e → e ≠ .fuelResolve := by
  intro l
  induction l with
  | nil => intro s hB e h; simp only [loopAllOf] at h; cases h
  | cons item rest ih =>
    intro s hB e h
    simp only [loopAllOf] at h
    cases hIr : item.ref with
    | none =>
      simp only [hIr] at h
      exact ih s hB e h
    | some r =>
      simp only [hIr] at h
      cases hf1 : f s (to_class_name (lastSegment r)) with
      | error e2 =>
        simp only [hf1] at h
        cases h
        exact hfe s _ hB e hf1
      | ok s2 =>
        simp only [hf1] at h
        have hs2 : unvis queue s2 ≤ B :=
          le_trans (unvis_mono queue (RGrow_vis_sub (hfg _ _ _ hf1).1)) hB
        exact ih s2 hs2 e h

theorem loopProps_no_fr
    (defs queue : List (String × Schema)) (cdFuel : Nat) (cname : String)
    (f : GenState → String → Except Err GenState) (B : Nat)
    (hfg : ∀ s c s', f s c = .ok s' → RGrow queue s s' ∧ c ∈ s'.visited)
    (hfe : ∀ s c, unvis queue s ≤ B → ∀ e, f s c = .error e → e ≠ .fuelResolve) :
    ∀ (props : List (String × Schema)) (s : GenState), unvis queue s ≤ B →
      ∀ e, loopProps defs cdFuel cname f props s = .error e → e ≠ .fuelResolve := by
  intro props
  induction props with
  | nil => intro s hB e h; simp only [loopProps] at h; cases h
  | cons pp rest ih =>
    rcases pp with ⟨pn, prop⟩
    intro s hB e h
    simp only [loopProps] at h
    cases hIr : prop.ref with
    | some r =>
      simp only [hIr] at h
      cases hf1 : f s (to_class_name (lastSegment r)) with
      | error e2 =>
        simp only [hf1] at h
        cases h
        exact hfe s _ hB e hf1
      | ok s2 =>
        simp only [hf1] at h
        have hs2 : unvis queue s2 ≤ B :=
          le_trans (unvis_mono queue (RGrow_vis_sub (hfg _ _ _ hf1).1)) hB
        exact ih s2 hs2 e h
    | none =>
      simp only [hIr] at h
      by_cases ha : prop.ty = some "array"
      · rw [if_pos ha] at h
        cases hitr : (prop.itemsV.getD Schema.empty).ref with
        | some r =>
          simp only [hitr] at h
          cases hf1 : f s (to_class_name (lastSegment r)) with
          | error e2 =>
            simp only [hf1] at h
            cases h
            exact hfe s _ hB e hf1
          | ok s2 =>
            simp only [hf1] at h
            have hs2 : unvis queue s2 ≤ B :=
              le_trans (unvis_mono queue (RGrow_vis_sub (hfg _ _ _ hf1).1)) hB
            exact ih s2 hs2 e h
        | none =>
          simp only [hitr] at h
          by_cases ho : (prop.itemsV.getD Schema.empty).ty = some "object"
          · rw [if_pos ho] at h
            cases hcd : create_dataclass_fx defs cdFuel
                (to_class_name (cname ++ "_inline"))
                (prop.itemsV.getD Schema.empty) s.eenums with
            | error e2 =>
              simp only [hcd] at h
              cases h
              have := cd_error_is_fuelInline defs cdFuel _ _ _ _ hcd
              subst this
              intro hc
              cases hc
            | ok p =>
              rcases p with ⟨ee, inl⟩
              simp only [hcd] at h
              refine ih _ ?_ e h
              exact le_trans (unvis_mono queue (by intro a haa; exact haa)) hB
          · rw [if_neg ho] at h
            exact ih s hB e h
      · rw [if_neg ha] at h
        exact ih s hB e h

theorem resolve_no_fr (defs queue : List (String × Schema)) (cdFuel : Nat) :
    ∀ (fuel : Nat) (st : GenState) (c : String), unvis queue st < fuel →
      ∀ e, resolve_dependencies defs queue cdFuel fuel st c = .error e →
        e ≠ .fuelResolve := by
  intro fuel
  induction fuel with
  | zero => intro st c hlt e h; omega
  | succ fuel ih =>
    intro st c hlt e h
    simp only [resolve_dependencies] at h
    by_cases hv : c ∈ st.visited
    · rw [if_pos hv] at h; cases h
    · rw [if_neg hv] at h
      cases hlk : dlookup queue c with
      | none =>
        simp only [hlk] at h
        cases h
        intro hc
        cases hc
      | some schema =>
        simp only [hlk] at h
        set st2 : GenState :=
          (if schema.enumV.isSome then
            { st with visited := c :: st.visited,
                      enums := st.enums ++ [c] }
          else { st with visited := c :: st.visited }) with hst2
        have hst2v : st2.visited = c :: st.visited := by
          rw [hst2]; by_cases he : schema.enumV.isSome = true
          · rw [if_pos he]
          · rw [if_neg he]
        have hlt2 : unvis queue st2 < unvis queue st :=
          unvis_lt queue (dlookup_some_mem_keys queue c schema hlk) hv hst2v
        have hfe2 : ∀ s c', unvis queue s ≤ unvis queue st2 →
            ∀ e2, resolve_dependencies defs queue cdFuel fuel s c' = .error e2 →
              e2 ≠ .fuelResolve := by
          intro s c' hle e2 hh
          exact ih s c' (by omega) e2 hh
        have hfg2 : ∀ s c' s', resolve_dependencies defs queue cdFuel fuel s c' = .ok s' →
            RGrow queue s s' ∧ c' ∈ s'.visited :=
          fun s c' s' hh => resolve_RGrow defs queue cdFuel fuel s c' s' hh
        cases hal : (match schema.allOfV with
             | some l => loopAllOf (resolve_dependencies defs queue cdFuel fuel) l st2
             | none =>
               match schema.propsV with
               | some props =>
                 loopProps defs cdFuel c
                   (resolve_dependencies defs queue cdFuel fuel) props st2
               | none => .ok st2) with
        | error e2 =>
          simp only [hal] at h
          cases h
          cases hao : schema.allOfV with
          | some l =>
            rw [hao] at hal
            exact loopAllOf_no_fr queue _ (unvis queue st2) hfg2 hfe2 l st2
              (le_refl _) e hal
          | none =>
            rw [hao] at hal
            cases hpr : schema.propsV with
            | some props =>
              rw [hpr] at hal
              exact loopProps_no_fr defs queue cdFuel c _ (unvis queue st2) hfg2 hfe2
                props st2 (le_refl _) e hal
            | none =>
              rw [hpr] at hal
              cases hal
        | ok st3 =>
          simp only [hal] at h
          cases hcd : create_dataclass_fx defs cdFuel c schema st3.eenums with
          | error e2 =>
            simp only [hcd] at h
            cases h
            have := cd_error_is_fuelInline defs cdFuel _ _ _ _ hcd
            subst this
            intro hc
            cases hc
          | ok p =>
            rcases p with ⟨ee, inl⟩
            simp only [hcd] at h
            cases h

theorem runLoop_no_fr
    (step : GenState → String → Except Err GenState)
    (hstep_err : ∀ s c e, step s c = .error e → e ≠ .fuelResolve) :
    ∀ (names : List String) (s : GenState) (e : Err),
      runLoop step names s = .error e → e ≠ .fuelResolve := by
  intro names
  induction names with
  | nil => intro s e h; simp only [runLoop] at h; cases h
  | cons c rest ih =>
    intro s e h
    simp only [runLoop] at h
    cases h1 : step s c with
    | error e2 =>
      simp only [h1] at h
      cases h
      exact hstep_err s c e h1
    | ok s2 =>
      simp only [h1] at h
      exact ih s2 e h

/-- The reference-traversal fuel `|queue| + 1` never runs out: a full
run either succeeds or fails with a `KeyError` or inline-recursion
fuel exhaustion, never with `fuelResolve`. -/
theorem runResolver_not_fuelResolve (rawDefs : List (String × Schema)) (cdFuel : Nat) :
    ∀ e, runResolver rawDefs cdFuel = .error e → e ≠ .fuelResolve := by
  intro e h
  unfold runResolver at h
  refine runLoop_no_fr _ ?_ _ _ e h
  intro s c e2 hh
  refine resolve_no_fr rawDefs (buildQueue rawDefs) cdFuel _ s c ?_ e2 hh
  have h1 : unvis (buildQueue rawDefs) s ≤ ((buildQueue rawDefs).map Prod.fst).length :=
    List.length_filter_le _ _
  have h2 : ((buildQueue rawDefs).map Prod.fst).length = (buildQueue rawDefs).length :=
    List.length_map _ _
  omega

/- ## Claims C2, C3, C9 -/

/-- C2 (counterexample): with a dangling `$ref` in a property, the run
raises `KeyError` and emits nothing — so it is NOT the case that every
input set of definitions has every definition emitted exactly once
(definition `A` is never appended). -/
theorem C2_counterexample :
    runErr [("A", .mk none none none none
        (some [("p", .mk (some "#/definitions/Missing") none none none none none)])
        none)] 1
      = some (.keyError "Missing") ∧
    runOk [("A", .mk none none none none
        (some [("p", .mk (some "#/definitions/Missing") none none none none none)])
        none)] 1 = none := by
  constructor
  · rfl
  · rfl

/-- C2 (amended): the reference-traversal recursion always terminates —
its depth is bounded by the number of definitions, so the fuel
`|queue| + 1` built into the run is never exhausted — and whenever the
run completes successfully, every named definition of the queue is
emitted (appended as a per-definition class) exactly once.  A dangling
`$ref` aborts the run with a lookup error instead. -/
theorem C2_terminates_unique_amended :
    ∀ (rawDefs : List (String × Schema)) (cdFuel : Nat),
      (∀ e, runResolver rawDefs cdFuel = .error e → e ≠ .fuelResolve) ∧
      (∀ st, runResolver rawDefs cdFuel = .ok st →
        ∀ k ∈ (buildQueue rawDefs).map Prod.fst,
          countOcc (defNames st.classes) k = 1) := by
  intro rawDefs cdFuel
  constructor
  · exact runResolver_not_fuelResolve rawDefs cdFuel
  · intro st h k hk
    rcases runResolver_ok_facts rawDefs cdFuel st h with ⟨-, hnd, hkeys, hcnt, -⟩
    rw [hcnt k]
    exact countOcc_eq_one_of_nodup_mem _ _ hnd (hkeys k hk)

/-- Witness for C2 (amended) on a one-definition table. -/
theorem C2_amended_witness :
    countOcc (defNames (⟨["A"], [EC.defC "A"], [], []⟩ : GenState).classes) "A" = 1 :=
  (C2_terminates_unique_amended [("A", Schema.empty)] 1).2
    ⟨["A"], [EC.defC "A"], [], []⟩ rfl "A" (by decide)

/-- C3 (counterexample): a dangling `$ref` in a top-level array
definition's `items` does NOT abort the run: the generation completes
and emits class `A` whose items type names the missing definition —
a silently-broken reference. -/
theorem C3_counterexample :
    "Missing" ∈ allRefsTable
        [("A", .mk none (some "array") none none none
          (some (.mk (some "#/definitions/Missing") none none none none none)))] ∧
    "Missing" ∉ (buildQueue
        [("A", .mk none (some "array") none none none
          (some (.mk (some "#/definitions/Missing") none none none none none)))]).map
        Prod.fst ∧
    runOk [("A", .mk none (some "array") none none none
          (some (.mk (some "#/definitions/Missing") none none none none none)))] 1
      = some ⟨["A"], [EC.defC "A"], [], []⟩ := by
  refine ⟨by decide, by decide, rfl⟩

/-- C3 (amended): a dangling `$ref` in a position the resolver
traverses — in particular inside an `allOf` member of a definition —
does abort the run with an error (the `KeyError` lookup failure): no
successful artifact is produced. -/
theorem C3_dangling_allOf_amended
    (rawDefs : List (String × Schema)) (cdFuel : Nat) (d : String) (s : Schema)
    (r : String)
    (hd : dlookup (buildQueue rawDefs) d = some s)
    (hr : r ∈ refTargets (s.allOfV.getD []))
    (hmiss : r ∉ (buildQueue rawDefs).map Prod.fst) :
    ∃ e, runResolver rawDefs cdFuel = .error e := by
  cases hrun : runResolver rawDefs cdFuel with
  | error e => exact ⟨e, rfl⟩
  | ok st =>
    exfalso
    rcases runResolver_ok_facts rawDefs cdFuel st hrun with ⟨hvis, -, hkeys, -, -⟩
    have hdk : d ∈ (buildQueue rawDefs).map Prod.fst :=
      dlookup_some_mem_keys _ _ _ hd
    have hdv : d ∈ st.visited := hkeys d hdk
    rcases hvis d hdv with ⟨s2, hl2, hedge⟩
    rw [hd] at hl2
    cases hl2
    have hre : r ∈ codeEdges s := by
      unfold codeEdges
      cases hao : s.allOfV with
      | some l => rw [hao] at hr; simpa using hr
      | none => rw [hao] at hr; cases hr
    have hrv : r ∈ st.visited := hedge r hre
    rcases hvis r hrv with ⟨s3, hl3, -⟩
    exact hmiss (dlookup_some_mem_keys _ _ _ hl3)

/-- Witness for C3 (amended): a definition whose `allOf` member
references a missing definition makes the run fail. -/
theorem C3_amended_witness :
    ∃ e, runResolver
      [("A", .mk none none none
        (some [.mk (some "#/definitions/Missing") none none none none none])
        none none)] 1 = .error e :=
  C3_dangling_allOf_amended _ 1 "A"
    (.mk none none none
      (some [.mk (some "#/definitions/Missing") none none none none none])
      none none)
    "Missing" rfl (by decide) (by decide)

/-- C9 (counterexample): an enum-typed top-level definition `X` makes
the generator emit BOTH an enum declaration named `X` and a dataclass
declaration named `X` — two declarations in the artifact share a
name. -/
theorem C9_counterexample :
    runOk [("X", .mk none (some "string") (some ["a", "b"]) none none none)] 1
      = some ⟨["X"], [EC.defC "X"], ["X"], []⟩ ∧
    ¬ (emittedNames ⟨["X"], [EC.defC "X"], ["X"], []⟩).Nodup := by
  refine ⟨rfl, by decide⟩

/-- C9 (amended): in a successful run the per-definition class names
are pairwise distinct, and the property-synthesized enum names (the
`existing_enums` keys) are pairwise distinct; but names may still
repeat across categories (an enum-typed definition yields an enum and
a class with the same name) and inline classes may repeat names. -/
theorem C9_unique_names_amended
    (rawDefs : List (String × Schema)) (cdFuel : Nat) (st : GenState)
    (h : runResolver rawDefs cdFuel = .ok st) :
    (defNames st.classes).Nodup ∧ (st.eenums.map Prod.fst).Nodup := by
  rcases runResolver_ok_facts rawDefs cdFuel st h with ⟨-, hnd, -, hcnt, hee⟩
  refine ⟨?_, hee⟩
  apply nodup_of_countOcc_le_one
  intro x
  rw [hcnt x]
  exact countOcc_le_one_of_nodup _ _ hnd

/-- Witness for C9 (amended) on a two-definition table with a
property enum. -/
theorem C9_amended_witness :
    (defNames (⟨["A"], [EC.defC "A"], [], [("Astatus", ["a"])]⟩ : GenState).classes).Nodup ∧
    ((⟨["A"], [EC.defC "A"], [], [("Astatus", ["a"])]⟩ : GenState).eenums.map
      Prod.fst).Nodup :=
  C9_unique_names_amended
    [("A", .mk none none none none
      (some [("status", .mk none (some "string") (some ["a"]) none none none)]) none)]
    1 ⟨["A"], [EC.defC "A"], [], [("Astatus", ["a"])]⟩ rfl

/- ## Emission order: acyclicity machinery -/

theorem transGen_rank (edgesF : Schema → List String) (queue : List (String × Schema))
    (rank : String → Nat) (h : rankedBy edgesF queue rank) :
    ∀ a b, Relation.TransGen (edgeRel edgesF queue) a b → rank a < rank b := by
  intro a b hab
  induction hab with
  | single h1 =>
    rcases h1 with ⟨s, hl, hm⟩
    exact h _ (dlookup_mem_pair _ _ _ hl) _ hm
  | tail _ h2 ih =>
    rcases h2 with ⟨s, hl, hm⟩
    exact lt_trans ih (h _ (dlookup_mem_pair _ _ _ hl) _ hm)

theorem acyclic_of_ranked (edgesF : Schema → List String)
    (queue : List (String × Schema)) (rank : String → Nat)
    (h : rankedBy edgesF queue rank) : acyclicRel edgesF queue := by
  intro a ha
  exact absurd (transGen_rank edgesF queue rank h a a ha) (lt_irrefl _)

/- ## Emission order: the prefix-closure invariant -/

theorem split_snoc {α : Type} :
    ∀ (l1 : List α) (d : α) (l2 X : List α) (c : α),
      l1 ++ d :: l2 = X ++ [c] →
      (l1 = X ∧ d = c ∧ l2 = []) ∨ ∃ l2', l2 = l2' ++ [c] ∧ X = l1 ++ d :: l2' := by
  intro l1
  induction l1 with
  | nil =>
    intro d l2 X c h
    cases X with
    | nil =>
      simp only [List.nil_append] at h
      injection h with h1 h2
      subst h1; subst h2
      left; exact ⟨rfl, rfl, rfl⟩
    | cons x X' =>
      simp only [List.nil_append, List.cons_append] at h
      injection h with h1 h2
      subst h1; subst h2
      right; exact ⟨X', rfl, rfl⟩
  | cons a l1' ih =>
    intro d l2 X c h
    cases X with
    | nil =>
      simp only [List.cons_append, List.nil_append] at h
      injection h with h1 h2
      exfalso
      cases l1' with
      | nil => simp at h2
      | cons b t => simp at h2
    | cons x X' =>
      simp only [List.cons_append] at h
      injection h with h1 h2
      subst h1
      rcases ih d l2 X' c h2 with ⟨h3, h4, h5⟩ | ⟨l2', h3, h4⟩
      · left; exact ⟨by rw [h3], h4, h5⟩
      · right; exact ⟨l2', h3, by simp [h4]⟩

theorem goodL_nil (queue : List (String × Schema)) : GoodL queue [] := by
  intro l1 d l2 h r he
  exact absurd h (by simp)

theorem goodL_snoc (queue : List (String × Schema)) (X : List String) (c : String)
    (hX : GoodL queue X) (hc : ∀ r, edgeRel codeEdges queue c r → r ∈ X) :
    GoodL queue (X ++ [c]) := by
  intro l1 d l2 hsplit r hedge
  rcases split_snoc l1 d l2 X c hsplit.symm with ⟨h1, h2, h3⟩ | ⟨l2', h1, h2⟩
  · subst h1; subst h2
    exact hc r hedge
  · exact hX l1 d l2' h2 r hedge

theorem defNames_inl_block (x : List EC) (inl : List String) (nm : String) :
    defNames (x ++ inl.map EC.inlC ++ [EC.inlC nm]) = defNames x := by
  rw [defNames_append, defNames_append, defNames_map_inl]
  simp [defNames]

theorem InvO_classes_inl (queue : List (String × Schema)) (S : List String)
    (s : GenState) (ee : Eenums) (inl : List String) (nm : String)
    (h : InvO queue S s) :
    InvO queue S
      { s with eenums := ee,
               classes := s.classes ++ inl.map EC.inlC ++ [EC.inlC nm] } := by
  rcases h with ⟨h1, h2⟩
  constructor
  · intro n hn
    rcases h1 n hn with h3 | h3
    · exact Or.inl h3
    · right
      show n ∈ defNames (s.classes ++ inl.map EC.inlC ++ [EC.inlC nm])
      rw [defNames_inl_block]
      exact h3
  · show GoodL queue (defNames (s.classes ++ inl.map EC.inlC ++ [EC.inlC nm]))
    rw [defNames_inl_block]
    exact h2

/- ## Loop lemmas (order invariant) -/

theorem loopAllOf_inv (queue : List (String × Schema)) (S : List String)
    (f : GenState → String → Except Err GenState) (A : List String)
    (hf : ∀ s c' s', c' ∈ A → InvO queue S s → f s c' = .ok s' → InvO queue S s') :
    ∀ (l : List Schema) (s s' : GenState),
      (∀ x ∈ refTargets l, x ∈ A) → InvO queue S s →
      loopAllOf f l s = .ok s' → InvO queue S s' := by
  intro l
  induction l with
  | nil =>
    intro s s' _ hi h
    simp only [loopAllOf] at h
    cases h
    exact hi
  | cons item rest ih =>
    intro s s' hsub hi h
    simp only [loopAllOf] at h
    cases hIr : item.ref with
    | none =>
      simp only [hIr] at h
      refine ih s s' ?_ hi h
      intro x hx
      exact hsub x (by rw [refTargets_cons_none rest hIr]; exact hx)
    | some r =>
      simp only [hIr] at h
      cases hf1 : f s (to_class_name (lastSegment r)) with
      | error e => simp only [hf1] at h; cases h
      | ok s2 =>
        simp only [hf1] at h
        have hmem : to_class_name (lastSegment r) ∈ A :=
          hsub _ (by rw [refTargets_cons_some rest hIr]; exact List.mem_cons_self _ _)
        have hi2 := hf s _ s2 hmem hi hf1
        refine ih s2 s' ?_ hi2 h
        intro x hx
        exact hsub x (by rw [refTargets_cons_some rest hIr]; exact List.mem_cons_of_mem _ hx)

theorem loopProps_inv (defs queue : List (String × Schema)) (cdFuel : Nat)
    (cname : String) (S : List String)
    (f : GenState → String → Except Err GenState) (A : List String)
    (hf : ∀ s c' s', c' ∈ A → InvO queue S s → f s c' = .ok s' → InvO queue S s') :
    ∀ (props : List (String × Schema)) (s s' : GenState),
      (∀ x ∈ propTargets props, x ∈ A) → InvO queue S s →
      loopProps defs cdFuel cname f props s = .ok s' → InvO queue S s' := by
  intro props
  induction props with
  | nil =>
    intro s s' _ hi h
    simp only [loopProps] at h
    cases h
    exact hi
  | cons pp rest ih =>
    rcases pp with ⟨pn, prop⟩
    intro s s' hsub hi h
    simp only [loopProps] at h
    cases hIr : prop.ref with
    | some r =>
      simp only [hIr] at h
      cases hf1 : f s (to_class_name (lastSegment r)) with
      | error e => simp only [hf1] at h; cases h
      | ok s2 =>
        simp only [hf1] at h
        have hx0 : propTargets ((pn, prop) :: rest)
            = to_class_name (lastSegment r) :: propTargets rest :=
          propTargets_cons_ref rest (show (pn, prop).2.ref = some r from hIr)
        have hmem : to_class_name (lastSegment r) ∈ A := by
          apply hsub
          rw [hx0]
          exact List.mem_cons_self _ _
        have hi2 := hf s _ s2 hmem hi hf1
        refine ih s2 s' ?_ hi2 h
        intro x hx
        apply hsub
        rw [hx0]
        exact List.mem_cons_of_mem _ hx
    | none =>
      simp only [hIr] at h
      by_cases ha : prop.ty = some "array"
      · rw [if_pos ha] at h
        cases hitr : (prop.itemsV.getD Schema.empty).ref with
        | some r =>
          simp only [hitr] at h
          cases hf1 : f s (to_class_name (lastSegment r)) with
          | error e => simp only [hf1] at h; cases h
          | ok s2 =>
            simp only [hf1] at h
            have hx0 : propTargets ((pn, prop) :: rest)
                = to_class_name (lastSegment r) :: propTargets rest :=
              propTargets_cons_arr_ref rest (show (pn, prop).2.ref = none from hIr) ha hitr
            have hmem : to_class_name (lastSegment r) ∈ A := by
              apply hsub
              rw [hx0]
              exact List.mem_cons_self _ _
            have hi2 := hf s _ s2 hmem hi hf1
            refine ih s2 s' ?_ hi2 h
            intro x hx
            apply hsub
            rw [hx0]
            exact List.mem_cons_of_mem _ hx
        | none =>
          simp only [hitr] at h
          have hx0 : propTargets ((pn, prop) :: rest) = propTargets rest :=
            propTargets_cons_skip rest (show (pn, prop).2.ref = none from hIr) (Or.inr hitr)
          by_cases ho : (prop.itemsV.getD Schema.empty).ty = some "object"
          · rw [if_pos ho] at h
            cases hcd : create_dataclass_fx defs cdFuel
                (to_class_name (cname ++ "_inline"))
                (prop.itemsV.getD Schema.empty) s.eenums with
            | error e => simp only [hcd] at h; cases h
            | ok p =>
              rcases p with ⟨ee, inl⟩
              simp only [hcd] at h
              have hi2 := InvO_classes_inl queue S s ee inl
                (to_class_name (cname ++ "_inline")) hi
              refine ih _ s' ?_ hi2 h
              intro x hx
              apply hsub
              rw [hx0]
              exact hx
          · rw [if_neg ho] at h
            refine ih s s' ?_ hi h
            intro x hx
            apply hsub
            rw [hx0]
            exact hx
      · rw [if_neg ha] at h
        have hx0 : propTargets ((pn, prop) :: rest) = propTargets rest :=
          propTargets_cons_skip rest (show (pn, prop).2.ref = none from hIr) (Or.inl ha)
        refine ih s s' ?_ hi h
        intro x hx
        apply hsub
        rw [hx0]
        exact hx

/- ## The order master lemma -/

theorem resolve_order (defs queue : List (String × Schema)) (cdFuel : Nat)
    (hA : acyclicRel codeEdges queue) :
    ∀ (fuel : Nat) (S : List String) (st : GenState) (c : String) (st' : GenState),
      (∀ s ∈ S, Relation.TransGen (edgeRel codeEdges queue) s c) →
      InvO queue S st →
      resolve_dependencies defs queue cdFuel fuel st c = .ok st' →
      InvO queue S st' ∧ (c ∈ S ∨ c ∈ defNames st'.classes) := by
  intro fuel
  induction fuel with
  | zero => intro S st c st' _ _ h; cases h
  | succ fuel ih =>
    intro S st c st' hS hInv h
    simp only [resolve_dependencies] at h
    by_cases hv : c ∈ st.visited
    · rw [if_pos hv] at h
      cases h
      exact ⟨hInv, hInv.1 c hv⟩
    · rw [if_neg hv] at h
      cases hlk : dlookup queue c with
      | none => simp only [hlk] at h; cases h
      | some schema =>
        simp only [hlk] at h
        set st2 : GenState :=
          (if schema.enumV.isSome then
            { st with visited := c :: st.visited,
                      enums := st.enums ++ [c] }
          else { st with visited := c :: st.visited }) with hst2
        have hst2v : st2.visited = c :: st.visited := by
          rw [hst2]; by_cases he : schema.enumV.isSome = true
          · rw [if_pos he]
          · rw [if_neg he]
        have hst2c : st2.classes = st.classes := by
          rw [hst2]; by_cases he : schema.enumV.isSome = true
          · rw [if_pos he]
          · rw [if_neg he]
        -- invariant at st2 with stack c :: S
        have hInv2 : InvO queue (c :: S) st2 := by
          constructor
          · intro n hn
            rw [hst2v] at hn
            rcases List.mem_cons.mp hn with hn | hn
            · exact Or.inl (by rw [hn]; exact List.mem_cons_self _ _)
            · rcases hInv.1 n hn with h1 | h1
              · exact Or.inl (List.mem_cons_of_mem _ h1)
              · rw [hst2c]; exact Or.inr h1
          · rw [hst2c]; exact hInv.2
        -- the recursive calls preserve InvO for stack c :: S
        have hf2 : ∀ s c' s', c' ∈ codeEdges schema → InvO queue (c :: S) s →
            resolve_dependencies defs queue cdFuel fuel s c' = .ok s' →
            InvO queue (c :: S) s' := by
          intro s c' s' hmem hi hh
          have hedge : edgeRel codeEdges queue c c' := ⟨schema, hlk, hmem⟩
          have hS2 : ∀ x ∈ c :: S, Relation.TransGen (edgeRel codeEdges queue) x c' := by
            intro x hx
            rcases List.mem_cons.mp hx with hx | hx
            · rw [hx]; exact Relation.TransGen.single hedge
            · exact Relation.TransGen.tail (hS x hx) hedge
          exact (ih (c :: S) s c' s' hS2 hi hh).1
        cases hal : (match schema.allOfV with
             | some l => loopAllOf (resolve_dependencies defs queue cdFuel fuel) l st2
             | none =>
               match schema.propsV with
               | some props =>
                 loopProps defs cdFuel c
                   (resolve_dependencies defs queue cdFuel fuel) props st2
               | none => .ok st2) with
        | error e => simp only [hal] at h; cases h
        | ok st3 =>
          simp only [hal] at h
          -- InvO is preserved by the loop
          have hInv3 : InvO queue (c :: S) st3 := by
            cases hao : schema.allOfV with
            | some l =>
              rw [hao] at hal
              refine loopAllOf_inv queue (c :: S) _ (codeEdges schema) hf2 l st2 st3
                ?_ hInv2 hal
              intro x hx
              unfold codeEdges
              rw [hao]
              exact hx
            | none =>
              rw [hao] at hal
              cases hpr : schema.propsV with
              | some props =>
                rw [hpr] at hal
                refine loopProps_inv defs queue cdFuel c (c :: S) _ (codeEdges schema)
                  hf2 props st2 st3 ?_ hInv2 hal
                intro x hx
                unfold codeEdges
                rw [hao, hpr]
                exact hx
              | none =>
                rw [hpr] at hal
                cases hal
                exact hInv2
          -- every traversed target of `schema` is visited after the loop
          have hedges : ∀ r ∈ codeEdges schema, r ∈ st3.visited := by
            cases hao : schema.allOfV with
            | some l =>
              rw [hao] at hal
              have := loopAllOf_RGrow queue _
                (fun s c' s' hh => resolve_RGrow defs queue cdFuel fuel s c' s' hh)
                l st2 st3 hal
              unfold codeEdges
              rw [hao]
              exact this.2
            | none =>
              rw [hao] at hal
              cases hpr : schema.propsV with
              | some props =>
                rw [hpr] at hal
                have := loopProps_RGrow defs queue cdFuel c _
                  (fun s c' s' hh => resolve_RGrow defs queue cdFuel fuel s c' s' hh)
                  props st2 st3 hal
                unfold codeEdges
                rw [hao, hpr]
                exact this.2
              | none =>
                rw [hpr] at hal
                cases hal
                unfold codeEdges
                rw [hao, hpr]
                intro r hr
                cases hr
          -- traversed targets are already emitted (acyclicity rules out the stack)
          have hdone : ∀ r ∈ codeEdges schema, r ∈ defNames st3.classes := by
            intro r hr
            rcases hInv3.1 r (hedges r hr) with h1 | h1
            · exfalso
              have hedge : edgeRel codeEdges queue c r := ⟨schema, hlk, hr⟩
              rcases List.mem_cons.mp h1 with h2 | h2
              · rw [h2] at hedge
                exact hA c (Relation.TransGen.single hedge)
              · exact hA r (Relation.TransGen.tail (hS r h2) hedge)
            · exact h1
          cases hcd : create_dataclass_fx defs cdFuel c schema st3.eenums with
          | error e => simp only [hcd] at h; cases h
          | ok p =>
            rcases p with ⟨ee, inl⟩
            simp only [hcd] at h
            cases h
            have hdn : defNames (st3.classes ++ inl.map EC.inlC ++ [EC.defC c])
                = defNames st3.classes ++ [c] := by
              rw [defNames_append, defNames_append, defNames_map_inl]
              simp [defNames]
            constructor
            · constructor
              · intro n hn
                show n ∈ S ∨ n ∈ defNames (st3.classes ++ inl.map EC.inlC ++ [EC.defC c])
                rw [hdn]
                rcases hInv3.1 n hn with h1 | h1
                · rcases List.mem_cons.mp h1 with h2 | h2
                  · right
                    rw [h2]
                    exact List.mem_append.mpr (Or.inr (List.mem_cons_self _ _))
                  · exact Or.inl h2
                · exact Or.inr (List.mem_append.mpr (Or.inl h1))
              · show GoodL queue (defNames (st3.classes ++ inl.map EC.inlC ++ [EC.defC c]))
                rw [hdn]
                refine goodL_snoc queue _ c hInv3.2 ?_
                intro r hedge
                rcases hedge with ⟨s2, hl2, hr2⟩
                rw [hlk] at hl2
                cases hl2
                exact hdone r hr2
            · right
              show c ∈ defNames (st3.classes ++ inl.map EC.inlC ++ [EC.defC c])
              rw [hdn]
              exact List.mem_append.mpr (Or.inr (List.mem_cons_self _ _))

theorem runLoop_order (defs queue : List (String × Schema)) (cdFuel fuel : Nat)
    (hA : acyclicRel codeEdges queue) :
    ∀ (names : List String) (s s' : GenState),
      InvO queue [] s →
      runLoop (resolve_dependencies defs queue cdFuel fuel) names s = .ok s' →
      InvO queue [] s' := by
  intro names
  induction names with
  | nil =>
    intro s s' hi h
    simp only [runLoop] at h
    cases h
    exact hi
  | cons c rest ih =>
    intro s s' hi h
    simp only [runLoop] at h
    cases h1 : resolve_dependencies defs queue cdFuel fuel s c with
    | error e => simp only [h1] at h; cases h
    | ok s2 =>
      simp only [h1] at h
      have hi2 := (resolve_order defs queue cdFuel hA fuel [] s c s2
        (by intro x hx; cases hx) hi h1).1
      exact ih s2 s' hi2 h

/- ## firstPos helper lemmas -/

theorem firstPos_append_left (l1 l2 : List String) (r : String) (h : r ∈ l1) :
    firstPos (l1 ++ l2) r < l1.length := by
  induction l1 with
  | nil => cases h
  | cons y t ih =>
    by_cases hy : y = r
    · simp [firstPos, hy]
    · rcases List.mem_cons.mp h with h1 | h1
      · exact absurd h1.symm hy
      · simp only [List.cons_append, firstPos, if_neg hy, List.length_cons, List.append_eq]
        have := ih h1
        simp only [List.append_eq] at this
        omega

theorem firstPos_append_mid (l1 : List String) (d : String) (l2 : List String)
    (h : d ∉ l1) : firstPos (l1 ++ d :: l2) d = l1.length := by
  induction l1 with
  | nil => simp [firstPos]
  | cons y t ih =>
    have hy : y ≠ d := by
      intro he
      exact h (by rw [he]; exact List.mem_cons_self _ _)
    simp only [List.cons_append, firstPos, if_neg hy, List.length_cons, List.append_eq]
    have hih := ih (fun hm => h (List.mem_cons_of_mem _ hm))
    simp only [List.append_eq] at hih
    rw [hih]

theorem exists_split_of_mem {α : Type} {x : α} {l : List α} (h : x ∈ l) :
    ∃ l1 l2, l = l1 ++ x :: l2 := by
  induction l with
  | nil => cases h
  | cons y t ih =>
    rcases List.mem_cons.mp h with h1 | h1
    · exact ⟨[], t, by simp [h1]⟩
    · rcases ih h1 with ⟨l1, l2, hl⟩
      exact ⟨y :: l1, l2, by rw [hl]; rfl⟩

/- ## Claim C1 -/

/-- C1 (counterexample): in a table whose claim-level dependency graph
(direct property `$ref`s, `allOf`-member `$ref`s, array-item `$ref`s)
is acyclic, with the edge `A → B` given by a direct property `$ref`,
the resolver emits `A` BEFORE `B`: the `elif` at line 190 skips
property refs whenever an `allOf` key is present, so the claimed
ordering guarantee fails. -/
theorem C1_counterexample :
    acyclicRel claimEdges (buildQueue c1CexTable) ∧
    edgeRel claimEdges (buildQueue c1CexTable) "A" "B" ∧
    runOk c1CexTable 1 = some ⟨["B", "A"], [EC.defC "A", EC.defC "B"], [], []⟩ ∧
    ¬ precedesIn (defNames [EC.defC "A", EC.defC "B"]) "B" "A" := by
  refine ⟨acyclic_of_ranked claimEdges _ (fun s => if s = "A" then 0 else 1)
    (by decide), ⟨_, rfl, by decide⟩, rfl, by decide⟩

/-- C1 (amended): restricted to the dependency edges the code actually
traverses — `allOf`-member refs when `allOf` is present, otherwise
property refs and array-item refs — an acyclic dependency graph
guarantees that every definition's class is emitted strictly after
every definition it references along those edges. -/
theorem C1_order_amended (rawDefs : List (String × Schema)) (cdFuel : Nat)
    (st : GenState)
    (hA : acyclicRel codeEdges (buildQueue rawDefs))
    (h : runResolver rawDefs cdFuel = .ok st) :
    ∀ d r, edgeRel codeEdges (buildQueue rawDefs) d r →
      precedesIn (defNames st.classes) r d := by
  intro d r hedge
  have hinv0 : InvO (buildQueue rawDefs) [] initState := by
    constructor
    · intro n hn; cases hn
    · exact goodL_nil _
  have hfin : InvO (buildQueue rawDefs) [] st := by
    unfold runResolver at h
    exact runLoop_order rawDefs (buildQueue rawDefs) cdFuel _ hA _ initState st hinv0 h
  rcases runResolver_ok_facts rawDefs cdFuel st h with ⟨-, hnd, hkeys, hcnt, -⟩
  rcases hedge with ⟨s0, hl0, hr0⟩
  have hdk := dlookup_some_mem_keys _ _ _ hl0
  have hdv := hkeys d hdk
  have hdm : d ∈ defNames st.classes := by
    apply (countOcc_pos_iff_mem _ _).mp
    rw [hcnt d]
    have := (countOcc_pos_iff_mem st.visited d).mpr hdv
    omega
  have hdnd : (defNames st.classes).Nodup := by
    apply nodup_of_countOcc_le_one
    intro x
    rw [hcnt x]
    exact countOcc_le_one_of_nodup _ _ hnd
  rcases exists_split_of_mem hdm with ⟨l1, l2, hsplit⟩
  have hrmem : r ∈ l1 := hfin.2 l1 d l2 hsplit r ⟨s0, hl0, hr0⟩
  refine ⟨?_, hdm, ?_⟩
  · rw [hsplit]
    exact List.mem_append.mpr (Or.inl hrmem)
  · rw [hsplit]
    have hd_notin : d ∉ l1 := by
      rw [hsplit] at hdnd
      rcases List.nodup_append.mp hdnd with ⟨-, -, hdisj⟩
      intro hm
      exact hdisj hm (List.mem_cons_self _ _)
    rw [firstPos_append_mid l1 d l2 hd_notin]
    exact firstPos_append_left l1 (d :: l2) r hrmem

/-- Witness for C1 (amended): `A` referencing `B` through a property
`$ref` (no `allOf`) is emitted after `B`. -/
theorem C1_amended_witness :
    precedesIn
      (defNames (⟨["B", "A"], [EC.defC "B", EC.defC "A"], [], []⟩ : GenState).classes)
      "B" "A" := by
  have h := C1_order_amended c1WitTable 1
    ⟨["B", "A"], [EC.defC "B", EC.defC "A"], [], []⟩
    (acyclic_of_ranked codeEdges _ (fun s => if s = "A" then 0 else 1) (by decide))
    rfl
  exact h "A" "B" ⟨_, rfl, by decide⟩
